import Mathlib

/-!
# Matching statistics and sample-specific strings (`sample_specific_strings.cpp`)

A shallow embedding of the matching-statistics kernel, the sample-specific-string
(SSS) pass, the SSS table merge, the `.ms.tmp` record format and the FASTQ splitter
of `src/sample_specific_strings.cpp`, followed by theorems about them.

Conventions of the embedding.

* A `char` buffer is a `List Char`; a `std::vector<size_t>` is a `List Nat`.
* `size_t` is 64 bits wide.  A pointer returned by the index is an arbitrary
  64-bit value, so the sum `pos + l` is reduced modulo `2 ^ 64`.  Sums of read
  indices (`i + l`, `i + lengths[i - 1]`) are bounded by the read length plus one
  and are kept as natural numbers.
* Counts of the SSS table are natural numbers: a count never exceeds the number of
  emissions, far below `2 ^ 64`.
* `int` is 32 bits wide; signed overflow and division by zero are undefined behaviour
  and make the result `none` where they can occur (`split_fastq`).
* `kseq` keeps the sequence buffer NUL-terminated (`seq.s[seq.l] = 0`), so reading
  the byte at index `seq.l` yields the NUL character.
* The pointers index (`ms.query`) and the random-access text (`ra.charAt`,
  `ra.getLen`) come from headers outside this file: the text is a parameter
  `T : List Char` and the pointers are a parameter `pointers : List Nat` (or the
  function `query` where a whole call of `matching_statistics` is modelled).
* A loop whose body count is not fixed is a function by recursion on a bound of the
  number of iterations; each such bound is shown to be enough, so that the function is
  the loop itself (`extend_unfold`, `collectLoop_eq`, `dispatcherLoop_fuel`).
-/

namespace Moni

/-! ## Data model -/

/-- Modulus of `size_t` arithmetic. -/
def sizeMod : Nat := 2 ^ 64

/-- Longest MEM of a read: `struct mem_t`. -/
structure mem_t where
  pos : Nat
  len : Nat
  idx : Nat
deriving DecidableEq

/-- A per-read sample-specific string: `struct ss_type`. -/
structure ss_type where
  seq : List Char
  l : Nat
  ref_pos : Nat
  read_pos : Nat
deriving DecidableEq

/-- Random access to the text, `ra.charAt(p)`; only called with `p < n`. -/
def charAt (T : List Char) (p : Nat) : Char := T.getD p (Char.ofNat 0)

/-- Access to the read buffer, `read->seq.s[j]`; the buffer is NUL-terminated. -/
def seqAt (read : List Char) (j : Nat) : Char := read.getD j (Char.ofNat 0)

/-! ## The matching-statistics kernel (lines 273-305) -/

/-- Guard of the `while` loop of the kernel (line 284). -/
def extendCond (T read : List Char) (i pos l : Nat) : Prop :=
  i + l < read.length ∧ (pos + l) % sizeMod < T.length ∧
    seqAt read (i + l) = charAt T ((pos + l) % sizeMod)

instance (T read : List Char) (i pos l : Nat) : Decidable (extendCond T read i pos l) := by
  unfold extendCond; infer_instance

/-- The `while` loop of lines 284-291 on the pair `(l, n_Ns)`.  The first argument
bounds the number of iterations; `extend` passes `read.length - (i + l)`, which the
guard `i + l < read->seq.l` never lets the loop exceed. -/
def extendLoop (T read : List Char) (i pos : Nat) : Nat → Nat → Nat → Nat × Nat
  | 0, l, n_Ns => (l, n_Ns)
  | fuel + 1, l, n_Ns =>
    if extendCond T read i pos l then
      extendLoop T read i pos fuel (l + 1) (if seqAt read (i + l) = 'N' then n_Ns + 1 else 0)
    else (l, n_Ns)

/-- The `while` loop of lines 284-291, started from the carried `(l, n_Ns)`. -/
def extend (T read : List Char) (i pos l n_Ns : Nat) : Nat × Nat :=
  extendLoop T read i pos (read.length - (i + l)) l n_Ns

/-- Local variables of the kernel loop that live across iterations. -/
structure KernelState where
  l : Nat
  n_Ns : Nat
  mem_pos : Nat
  mem_len : Nat
  mem_idx : Nat
  lengths : List Nat
deriving DecidableEq

/-- State before the first iteration (lines 273-280). -/
def kernelInit (pointers : List Nat) : KernelState :=
  { l := 0, n_Ns := 0, mem_pos := 0, mem_len := 0, mem_idx := 0,
    lengths := List.replicate pointers.length 0 }

/-- One iteration of the `for` loop of lines 281-303. -/
def kernelBody (T read : List Char) (pointers : List Nat) (st : KernelState) (i : Nat) :
    KernelState :=
  let pos := pointers.getD i 0
  let r := extend T read i pos st.l st.n_Ns
  let lengths := st.lengths.set i r.1
  let l := if r.1 = 0 then 0 else r.1 - 1
  if lengths.getD i 0 > st.mem_len ∧ r.2 < lengths.getD i 0 then
    { l := l, n_Ns := r.2, mem_pos := pointers.getD i 0, mem_len := lengths.getD i 0,
      mem_idx := i, lengths := lengths }
  else
    { l := l, n_Ns := r.2, mem_pos := st.mem_pos, mem_len := st.mem_len,
      mem_idx := st.mem_idx, lengths := lengths }

/-- State after the first `k` iterations of the `for` loop of lines 281-303. -/
def kernelIter (T read : List Char) (pointers : List Nat) (k : Nat) : KernelState :=
  (List.range k).foldl (kernelBody T read pointers) (kernelInit pointers)

/-- The kernel loop: `for (i = 0; i < pointers.size(); ++i)`. -/
def kernel (T read : List Char) (pointers : List Nat) : KernelState :=
  kernelIter T read pointers pointers.length

/-- The array `lengths` after the kernel loop. -/
def kernelLengths (T read : List Char) (pointers : List Nat) : List Nat :=
  (kernel T read pointers).lengths

/-- The record `read_longest_mem` built at line 305. -/
def longestMem (T read : List Char) (pointers : List Nat) : mem_t :=
  let st := kernel T read pointers
  { pos := st.mem_pos, len := st.mem_len, idx := st.mem_idx }

/-- Value of `n_Ns` when the MEM test of line 297 runs in iteration `i`. -/
def nNsAt (T read : List Char) (pointers : List Nat) (i : Nat) : Nat :=
  (kernelIter T read pointers (i + 1)).n_Ns

/-- Result of the `while` loop in iteration `i`: the pair `(l, n_Ns)` at line 293. -/
def extendAt (T read : List Char) (pointers : List Nat) (i : Nat) : Nat × Nat :=
  extend T read i (pointers.getD i 0) (kernelIter T read pointers i).l
    (kernelIter T read pointers i).n_Ns


/-! ## Matching statistics as the specification states them -/

/-- Length of the longest common prefix of two strings. -/
def lcp : List Char → List Char → Nat
  | a :: as, b :: bs => if a = b then lcp as bs + 1 else 0
  | _, _ => 0

/-- The MS length at position `i` of the read `s`, in the words of the specification:
the length of the longest prefix of `s[i..]` that occurs anywhere in `T`. -/
def msLength (T s : List Char) (i : Nat) : Nat :=
  Nat.findGreatest (fun k => (s.drop i).take k <:+: T) (s.length - i)

/-- A correct MS seed sequence: for each `i`, the longest common prefix of `s[i..]`
and `T[P[i]..]` has the MS length at `i`. -/
def IsMsSeed (T s : List Char) (P : List Nat) : Prop :=
  ∀ i, i < s.length → lcp (s.drop i) (T.drop (P.getD i 0)) = msLength T s i

instance (T s : List Char) (P : List Nat) : Decidable (IsMsSeed T s P) := by
  unfold IsMsSeed; infer_instance

/-- Position `i` has `L[i] > 0` and passes the non-N guard of line 297: the value of
`n_Ns` after the extension at `i` is below `L[i]`. -/
def PassesGuard (T read : List Char) (pointers : List Nat) (i : Nat) : Prop :=
  i < pointers.length ∧ 0 < (kernelLengths T read pointers).getD i 0 ∧
    nNsAt T read pointers i < (kernelLengths T read pointers).getD i 0

instance (T read : List Char) (pointers : List Nat) (i : Nat) :
    Decidable (PassesGuard T read pointers i) := by
  unfold PassesGuard; infer_instance

/-! ## The SSS pass (lines 320-342) and the SSS table -/

/-- The aggregation table `ss_map_type`: string ↦ (count, set of reference positions).
Entries are kept in a list with distinct keys; only lookups observe the table, since
the iteration order of `std::unordered_map` is unspecified. -/
abbrev ss_map_type := List (List Char × (Nat × Finset Nat))

/-- The value stored under `key`, or the value-initialised pair when absent. -/
def ssLookup : ss_map_type → List Char → Nat × Finset Nat
  | [], _ => (0, ∅)
  | (k, v) :: rest, key => if k = key then v else ssLookup rest key

/-- Update through `m[key]`: `operator[]` inserts a value-initialised entry when the
key is absent, then the entry is modified by `f`. -/
def ssModify : ss_map_type → List Char → (Nat × Finset Nat → Nat × Finset Nat) → ss_map_type
  | [], key, f => [(key, f (0, ∅))]
  | (k, v) :: rest, key, f =>
    if k = key then (k, f v) :: rest else (k, v) :: ssModify rest key f

/-- The inner loop of line 327, `for (j = i - 1; j <= i + lengths[i - 1]; j++)`, with
`hi = i + lengths[i - 1]`; the first argument bounds the number of iterations. -/
def collectLoop (read : List Char) (hi : Nat) : Nat → Nat → List Char → List Char
  | 0, _, acc => acc
  | fuel + 1, j, acc =>
    if j ≤ hi then collectLoop read hi fuel (j + 1) (acc ++ [seqAt read j]) else acc

/-- The string `sample_specific` built at lines 326-327 for index `i ≥ 1`. -/
def sampleSpecific (read : List Char) (lengths : List Nat) (i : Nat) : List Char :=
  collectLoop read (i + lengths.getD (i - 1) 0)
    (i + lengths.getD (i - 1) 0 + 1 - (i - 1)) (i - 1) []

/-- State of the SSS pass: the table and the per-read list. -/
structure SssState where
  sample_specifics : ss_map_type
  specific_string_per_read : List ss_type

/-- The two table updates of lines 330-331: `table[seq].first += 1` and
`table[seq].second.insert(ref_pos)`. -/
def recordEmission (table : ss_map_type) (seq : List Char) (ref_pos : Nat) : ss_map_type :=
  ssModify (ssModify table seq (fun v => (v.1 + 1, v.2))) seq
    (fun v => (v.1, insert ref_pos v.2))

/-- One iteration of the loop of lines 322-342. -/
def sssBody (read : List Char) (pointers lengths : List Nat) (st : SssState) (i : Nat) :
    SssState :=
  if lengths.getD i 0 ≥ lengths.getD (i - 1) 0 then
    let sample_specific := sampleSpecific read lengths i
    if sample_specific.length ≠ 0 then
      { sample_specifics :=
          recordEmission st.sample_specifics sample_specific (pointers.getD (i - 1) 0),
        specific_string_per_read := st.specific_string_per_read ++
          [{ seq := sample_specific, l := sample_specific.length,
             read_pos := i - 1, ref_pos := pointers.getD (i - 1) 0 }] }
    else st
  else st

/-- The loop of lines 322-342: `for (i = 1; i < lengths.size(); i++)`. -/
def sssLoop (read : List Char) (pointers lengths : List Nat) (table : ss_map_type) :
    SssState :=
  (List.range' 1 (lengths.length - 1)).foldl (sssBody read pointers lengths)
    { sample_specifics := table, specific_string_per_read := [] }

/-- The `.ms.tmp` record written at lines 344-347: `q_length`, then `q_length` words of
`pointers`, then `q_length` words of `lengths`. -/
def msRecord (pointers lengths : List Nat) : List Nat :=
  pointers.length :: (pointers.take pointers.length ++ lengths.take pointers.length)

/-- What one call of `matching_statistics` produces: the updated table, the words
appended to `out`, the longest MEM and the per-read SSS list (the last two are the
payload of the record appended to `out_ss`). -/
structure MsResult where
  sample_specifics : ss_map_type
  out : List Nat
  read_longest_mem : mem_t
  specific_string_per_read : List ss_type

/-- The method `ms_c::matching_statistics` (lines 271-366); `query` is `ms.query`. -/
def matching_statistics (query : List Char → List Nat) (T read : List Char)
    (sample_specifics : ss_map_type) : MsResult :=
  let pointers := query read
  let lengths := kernelLengths T read pointers
  let s := sssLoop read pointers lengths sample_specifics
  { sample_specifics := s.sample_specifics,
    out := msRecord pointers lengths,
    read_longest_mem := longestMem T read pointers,
    specific_string_per_read := s.specific_string_per_read }

/-- The record pushed at lines 333-339 for index `i`. -/
def sssRecord (read : List Char) (pointers lengths : List Nat) (i : Nat) : ss_type :=
  { seq := sampleSpecific read lengths i, l := (sampleSpecific read lengths i).length,
    read_pos := i - 1, ref_pos := pointers.getD (i - 1) 0 }

/-! ## Drivers: `st_ms`, `mt_ms_worker`, `mt_ms` (SSS table only) -/

/-- The read loop of `st_ms` (lines 534-537) on the table `specific_strings`. -/
def st_ms (query : List Char → List Nat) (T : List Char) (reads : List (List Char)) :
    ss_map_type :=
  reads.foldl (fun table read => (matching_statistics query T read table).sample_specifics) []

/-- The read loop of `mt_ms_worker` (lines 432-435) on the worker's private table. -/
def mt_ms_worker (query : List Char → List Nat) (T : List Char) (reads : List (List Char)) :
    ss_map_type :=
  reads.foldl (fun table read => (matching_statistics query T read table).sample_specifics) []

/-- Body of the merge loop of `mt_ms` (lines 474-477) for one entry of a shard table. -/
def mergeEntry (G : ss_map_type) (e : List Char × (Nat × Finset Nat)) : ss_map_type :=
  ssModify (ssModify G e.1 (fun v => (v.1 + e.2.1, v.2))) e.1 (fun v => (v.1, v.2 ∪ e.2.2))

/-- The merged table of `mt_ms` (lines 469-479); `shards[i]` are the reads of worker `i`. -/
def mt_ms (query : List Char → List Nat) (T : List Char)
    (shards : List (List (List Char))) : ss_map_type :=
  (shards.map (mt_ms_worker query T)).foldl (fun G shard => shard.foldl mergeEntry G) []

/-- All SSS emissions of a list of reads, in order. -/
def emissions (query : List Char → List Nat) (T : List Char) (reads : List (List Char)) :
    List ss_type :=
  reads.flatMap (fun read => (matching_statistics query T read []).specific_string_per_read)

/-- The table entry the specification assigns to `s`: the number of emissions of `s`
and the set of their `ref_pos` values. -/
def tally (es : List ss_type) (s : List Char) : Nat × Finset Nat :=
  ((es.filter (fun e => decide (e.seq = s))).length,
    ((es.filter (fun e => decide (e.seq = s))).map (fun e => e.ref_pos)).toFinset)

/-- Componentwise sum of two table values: counts added, position sets united. -/
def vadd (a b : Nat × Finset Nat) : Nat × Finset Nat := (a.1 + b.1, a.2 ∪ b.2)

/-- The table `m` has distinct keys and holds exactly the tally of the emissions `es`. -/
def Represents (m : ss_map_type) (es : List ss_type) : Prop :=
  (m.map Prod.fst).Nodup ∧
    ∀ s, ssLookup m s = tally es s ∧ (s ∈ m.map Prod.fst ↔ ∃ e ∈ es, e.seq = s)

/-! ## The `.ms.tmp` stream and the record loop of `dispatcher` (lines 709-750) -/

/-- One decoded record: the header counter `n_seq`, the pointers and the lengths that
`dispatcher` prints to `.pointers` and `.lengths`. -/
abbrev MsBlock := Nat × List Nat × List Nat

/-- The `while` loop of lines 721-748 on the 64-bit words of one `.ms.tmp` file.
`fread` of `length` items returns `min length (words left)`; a short `fread` of the
pointers or of the lengths is the fatal `error(...)`, modelled by `none`.  The loop
ends when no word is left for `length`.  The first argument bounds the number of
iterations; every iteration consumes at least one word, so the number of words of the
stream is enough. -/
def dispatcherLoop : Nat → List Nat → Nat → List MsBlock → Option (List MsBlock × Nat)
  | 0, _, n_seq, acc => some (acc, n_seq)
  | _ + 1, [], n_seq, acc => some (acc, n_seq)
  | fuel + 1, length :: rest, n_seq, acc =>
    if (rest.take length).length ≠ length then none
    else if ((rest.drop length).take length).length ≠ length then none
    else
      dispatcherLoop fuel ((rest.drop length).drop length) (n_seq + 1)
        (acc ++ [(n_seq, rest.take length, (rest.drop length).take length)])

/-- The record loop run on a whole file, with `n_seq = 0` on entry. -/
def dispatcherDecode (stream : List Nat) : Option (List MsBlock × Nat) :=
  dispatcherLoop stream.length stream 0 []

/-- The words of a `.ms.tmp` file: the records of the reads, concatenated. -/
def msStream (recs : List (List Nat × List Nat)) : List Nat :=
  recs.flatMap (fun r => msRecord r.1 r.2)

/-! ## The FASTQ splitter (lines 105-189)

The file is uncompressed, so `gzFile` is a cursor on its bytes: `gzgetc` returns the
byte under the cursor and advances, or `EOF` at the end of the file; `gztell` is the
cursor.  `split_fastq` only seeks to offsets `≤ size`. -/

/-- The loop `while (((c = gzgetc(fp)) != EOF) && (c != '\n')) {}` of line 119 on the
bytes from the cursor `pos` on: `some q` when a newline was read, with `q` the cursor
after it; `none` when `EOF` was reached. -/
def skipLineAux : List Char → Nat → Option Nat
  | [], _ => none
  | c :: cs, pos => if c = '\n' then some (pos + 1) else skipLineAux cs (pos + 1)

/-- The loop of line 119 from cursor `pos`. -/
def skipLine (file : List Char) (pos : Nat) : Option Nat :=
  skipLineAux (file.drop pos) pos

/-- Lines 119-126 for one `i`: skip to the end of the line, then read the next
character `c`; `some (c, offset of c)`, or `none` when either read meets `EOF`, in which
case `next_start_fastq` returns `gztell(fp)`, the file size. -/
def nextLineStart (file : List Char) (pos : Nat) : Option (Char × Nat) :=
  match skipLine file pos with
  | none => none
  | some q =>
    match file[q]? with
    | none => none
    | some c => some (c, q)

/-- The first `for` loop of lines 117-127, `k` rounds from cursor `pos`: the window
and the cursor after the loop, or `none` on `EOF`. -/
def collectWindow (file : List Char) : Nat → Nat → List (Char × Nat) → Option (List (Char × Nat) × Nat)
  | 0, pos, window => some (window, pos)
  | k + 1, pos, window =>
    match nextLineStart file pos with
    | none => none
    | some (c, q) => collectWindow file k (q + 1) (window ++ [(c, q)])

/-- The second `for` loop of lines 129-135 and the final `return gztell(fp)`. -/
def pickStart (window : List (Char × Nat)) (cur : Nat) : Nat :=
  let w := fun i => window.getD i (Char.ofNat 0, 0)
  if (w 0).1 = '@' ∧ (w 2).1 = '+' then (w 0).2
  else if (w 0).1 = '+' ∧ (w 2).1 = '@' then (w 2).2
  else if (w 1).1 = '@' ∧ (w 3).1 = '+' then (w 1).2
  else if (w 1).1 = '+' ∧ (w 3).1 = '@' then (w 3).2
  else cur

/-- Lines 113-137: the scan that starts after `gzseek(fp, -1, SEEK_CUR)` left the
cursor at `pos`. -/
def scanFrom (file : List Char) (pos : Nat) : Nat :=
  match collectWindow file 4 pos [] with
  | none => file.length
  | some (window, cur) => pickStart window cur

/-- The function `next_start_fastq` with the cursor at `pos` on entry.  When `pos = 0`
the first test reads one byte; `gzseek(fp, -1, SEEK_CUR)` then moves the cursor back by
one, or fails and leaves it at `0` when nothing was read: in every case the scan starts
at `pos - 1` (truncated). -/
def next_start_fastq (file : List Char) (pos : Nat) : Nat :=
  if pos = 0 ∧ file[0]? = some '@' then 0
  else scanFrom file (pos - 1)

/-- Largest value of `int` (32 bits). -/
def intMax : Nat := 2 ^ 31 - 1

/-- The function `split_fastq` on the bytes of the file; `n_threads` is a `size_t` value.
The vector has `n_threads + 1` entries, the sum taken in `size_t`, and the loop
`for (int i = 0; i < n_threads + 1; ++i)` compares `i` with that bound as `size_t`;
`starts[i] = next_start_fastq` after seeking to `(size * i) / n_threads`, the product
taken in `size_t`.  `none` stands for undefined behaviour: the division by
`n_threads = 0`, and the overflow of `int i` when the bound exceeds `intMax`. -/
def split_fastq (file : List Char) (n_threads : Nat) : Option (List Nat) :=
  if (n_threads + 1) % sizeMod = 0 then some []
  else if n_threads = 0 then none
  else if intMax < (n_threads + 1) % sizeMod then none
  else
    some ((List.range ((n_threads + 1) % sizeMod)).map
      (fun i => next_start_fastq file ((file.length * i) % sizeMod / n_threads)))

/-- A four-line FASTQ record: the text after `@`, the sequence, the text after `+`
and the quality string. -/
structure FastqRecord where
  name : List Char
  seq : List Char
  plus : List Char
  qual : List Char
deriving DecidableEq

/-- The four lines of a record, each with its terminating newline. -/
def FastqRecord.lines (r : FastqRecord) : List (List Char) :=
  [('@' :: r.name) ++ ['\n'], r.seq ++ ['\n'], ('+' :: r.plus) ++ ['\n'], r.qual ++ ['\n']]

/-- The bytes of a record. -/
def FastqRecord.bytes (r : FastqRecord) : List Char := r.lines.flatten

/-- Well-formed record: no newline inside a line, the sequence line is non-empty and
starts with neither `@` nor `+`, the quality line is non-empty (and may start with any
character). -/
def FastqRecord.WellFormed (r : FastqRecord) : Prop :=
  '\n' ∉ r.name ∧ '\n' ∉ r.seq ∧ '\n' ∉ r.plus ∧ '\n' ∉ r.qual ∧
    r.seq ≠ [] ∧ r.seq.head? ≠ some '@' ∧ r.seq.head? ≠ some '+' ∧ r.qual ≠ []

instance (r : FastqRecord) : Decidable r.WellFormed := by
  unfold FastqRecord.WellFormed; infer_instance

/-- The bytes of a FASTQ file with the records `rs`. -/
def fastqBytes (rs : List FastqRecord) : List Char := rs.flatMap FastqRecord.bytes

/-- The smallest offset `> q` at which a record of `rs` starts, or the file size when
there is none. -/
def nextRecordAfter : List FastqRecord → Nat → Nat
  | [], _ => 0
  | r :: rs, q =>
    if q < r.bytes.length then r.bytes.length
    else r.bytes.length + nextRecordAfter rs (q - r.bytes.length)

/-- The first character of each line of `ls` with its offset, the first line starting
at offset `off`. -/
def firstChars : List (List Char) → Nat → List (Char × Nat)
  | [], _ => []
  | x :: xs, off => (x.headD '\n', off) :: firstChars xs (off + x.length)

/-- The counter `c` describes the run of `N`s at the end of the window
`read[i .. i + l)`: the last `min c l` characters of the window are `N`, and when
`c < l` the character just before them is not `N`. -/
def TailRun (read : List Char) (i l c : Nat) : Prop :=
  (∀ j, i ≤ j → j < i + l → i + l ≤ j + c → seqAt read j = 'N') ∧
    (c < l → seqAt read (i + l - 1 - c) ≠ 'N')

/-- The offsets at which the `@` header lines of the records `rs` begin, the first
record starting at offset `off`. -/
def recordStarts : List FastqRecord → Nat → List Nat
  | [], _ => []
  | r :: rs, off => off :: recordStarts rs (off + r.bytes.length)

/-- The offsets at which the quality lines of the records `rs` begin, the first record
starting at offset `off`. -/
def qualStarts : List FastqRecord → Nat → List Nat
  | [], _ => []
  | r :: rs, off =>
    (off + (r.name.length + 2) + (r.seq.length + 1) + (r.plus.length + 2)) ::
      qualStarts rs (off + r.bytes.length)

/-- The bytes of a FASTQ file with the records `rs`; the newline that ends the last
line is present when `nl` is `true` and missing when it is `false`. -/
def fastqFile (rs : List FastqRecord) (nl : Bool) : List Char :=
  if nl then fastqBytes rs else (fastqBytes rs).dropLast
/-! ## Basic facts about the kernel -/

theorem extend_unfold (T read : List Char) (i pos l n_Ns : Nat) :
    extend T read i pos l n_Ns =
      if extendCond T read i pos l then
        extend T read i pos (l + 1) (if seqAt read (i + l) = 'N' then n_Ns + 1 else 0)
      else (l, n_Ns) := by
  unfold extend
  rcases h : read.length - (i + l) with _ | fuel
  · have hc : ¬ extendCond T read i pos l := by
      intro hc
      have := hc.1
      omega
    simp [extendLoop, hc]
  · have hf : read.length - (i + (l + 1)) = fuel := by omega
    simp only [extendLoop, hf]

theorem extendLoop_fst_ge (T read : List Char) (i pos : Nat) :
    ∀ fuel l n_Ns, l ≤ (extendLoop T read i pos fuel l n_Ns).1 := by
  intro fuel
  induction fuel with
  | zero => intro l n_Ns; simp [extendLoop]
  | succ fuel ih =>
    intro l n_Ns
    simp only [extendLoop]
    split
    · exact Nat.le_trans (Nat.le_succ l) (ih _ _)
    · exact Nat.le_refl l

theorem extend_fst_ge (T read : List Char) (i pos l n_Ns : Nat) :
    l ≤ (extend T read i pos l n_Ns).1 :=
  extendLoop_fst_ge T read i pos _ l n_Ns

theorem extendLoop_fst_bound (T read : List Char) (i pos : Nat) :
    ∀ fuel l n_Ns, i + l ≤ read.length →
      i + (extendLoop T read i pos fuel l n_Ns).1 ≤ read.length := by
  intro fuel
  induction fuel with
  | zero => intro l n_Ns h; simpa [extendLoop] using h
  | succ fuel ih =>
    intro l n_Ns h
    simp only [extendLoop]
    split
    · rename_i hc
      have := hc.1
      exact ih _ _ (by omega)
    · exact h

theorem extend_fst_bound (T read : List Char) (i pos l n_Ns : Nat)
    (h : i + l ≤ read.length) : i + (extend T read i pos l n_Ns).1 ≤ read.length :=
  extendLoop_fst_bound T read i pos _ l n_Ns h

theorem kernelIter_zero (T read : List Char) (pointers : List Nat) :
    kernelIter T read pointers 0 = kernelInit pointers := rfl

theorem kernelIter_succ (T read : List Char) (pointers : List Nat) (k : Nat) :
    kernelIter T read pointers (k + 1) =
      kernelBody T read pointers (kernelIter T read pointers k) k := by
  simp [kernelIter, List.range_succ, List.foldl_append]

theorem kernelBody_l (T read : List Char) (pointers : List Nat) (st : KernelState) (i : Nat) :
    (kernelBody T read pointers st i).l =
      (extend T read i (pointers.getD i 0) st.l st.n_Ns).1 - 1 := by
  simp only [kernelBody]
  split <;> (simp only []; split <;> omega)

theorem kernelBody_n_Ns (T read : List Char) (pointers : List Nat) (st : KernelState)
    (i : Nat) :
    (kernelBody T read pointers st i).n_Ns =
      (extend T read i (pointers.getD i 0) st.l st.n_Ns).2 := by
  simp only [kernelBody]
  split <;> rfl

theorem kernelBody_lengths (T read : List Char) (pointers : List Nat) (st : KernelState)
    (i : Nat) :
    (kernelBody T read pointers st i).lengths =
      st.lengths.set i (extend T read i (pointers.getD i 0) st.l st.n_Ns).1 := by
  simp only [kernelBody]
  split <;> rfl

theorem kernelIter_l_succ (T read : List Char) (pointers : List Nat) (k : Nat) :
    (kernelIter T read pointers (k + 1)).l = (extendAt T read pointers k).1 - 1 := by
  rw [kernelIter_succ, kernelBody_l]; rfl

theorem nNsAt_eq (T read : List Char) (pointers : List Nat) (k : Nat) :
    nNsAt T read pointers k = (extendAt T read pointers k).2 := by
  unfold nNsAt
  rw [kernelIter_succ, kernelBody_n_Ns]; rfl

theorem kernelIter_lengths_length (T read : List Char) (pointers : List Nat) (k : Nat) :
    (kernelIter T read pointers k).lengths.length = pointers.length := by
  induction k with
  | zero => simp [kernelIter_zero, kernelInit]
  | succ k ih => rw [kernelIter_succ, kernelBody_lengths, List.length_set, ih]

theorem kernelIter_lengths_getD (T read : List Char) (pointers : List Nat) (k : Nat) :
    ∀ j, j < k → j < pointers.length →
      (kernelIter T read pointers k).lengths.getD j 0 = (extendAt T read pointers j).1 := by
  induction k with
  | zero => intro j hj; omega
  | succ k ih =>
    intro j hj hjP
    rw [kernelIter_succ, kernelBody_lengths]
    have hlen := kernelIter_lengths_length T read pointers k
    by_cases hjk : j = k
    · subst hjk
      rw [List.getD_eq_getElem?_getD, List.getElem?_set_self]
      · rfl
      · omega
    · rw [List.getD_eq_getElem?_getD, List.getElem?_set_ne (Ne.symm hjk),
        ← List.getD_eq_getElem?_getD]
      exact ih j (by omega) hjP

/-- The stored length `lengths[i]` is the value of `l` at line 293 of iteration `i`. -/
theorem kernelLengths_getD (T read : List Char) (pointers : List Nat) (j : Nat)
    (hj : j < pointers.length) :
    (kernelLengths T read pointers).getD j 0 = (extendAt T read pointers j).1 :=
  kernelIter_lengths_getD T read pointers pointers.length j hj hj

theorem kernelLengths_length (T read : List Char) (pointers : List Nat) :
    (kernelLengths T read pointers).length = pointers.length :=
  kernelIter_lengths_length T read pointers pointers.length

/-! ## Bounds on the lengths -/

theorem kernelIter_l_bound (T read : List Char) (pointers : List Nat) :
    ∀ k, k ≤ read.length → k + (kernelIter T read pointers k).l ≤ read.length := by
  intro k
  induction k with
  | zero => intro _; simp [kernelIter_zero, kernelInit]
  | succ k ih =>
    intro hk
    have h1 := ih (by omega)
    have h2 := extend_fst_bound T read k (pointers.getD k 0) _
      (kernelIter T read pointers k).n_Ns h1
    rw [kernelIter_l_succ]
    unfold extendAt
    omega

theorem extendAt_fst_bound (T read : List Char) (pointers : List Nat) (i : Nat)
    (hi : i ≤ read.length) : i + (extendAt T read pointers i).1 ≤ read.length :=
  extend_fst_bound T read i _ _ _ (kernelIter_l_bound T read pointers i hi)

theorem extendAt_fst_ge (T read : List Char) (pointers : List Nat) (i : Nat) :
    (kernelIter T read pointers i).l ≤ (extendAt T read pointers i).1 :=
  extend_fst_ge T read i _ _ _

theorem extendLoop_fst_text_bound (T read : List Char) (i pos : Nat) (hpos : pos < T.length)
    (h64 : T.length + read.length ≤ sizeMod) :
    ∀ fuel l n_Ns, i + l ≤ read.length →
      (extendLoop T read i pos fuel l n_Ns).1 ≤ max (T.length - pos) l := by
  intro fuel
  induction fuel with
  | zero => intro l n_Ns _; simp [extendLoop]
  | succ fuel ih =>
    intro l n_Ns hl
    simp only [extendLoop]
    split
    · rename_i hc
      obtain ⟨hc1, hc2, _⟩ := hc
      have hlt : pos + l < sizeMod := by omega
      rw [Nat.mod_eq_of_lt hlt] at hc2
      have := ih (l + 1) (if seqAt read (i + l) = 'N' then n_Ns + 1 else 0) (by omega)
      have hmax : max (T.length - pos) (l + 1) = T.length - pos := by
        apply max_eq_left; omega
      rw [hmax] at this
      exact le_trans this (le_max_left _ _)
    · exact le_max_right _ _

/-- C3: for every pointer sequence, the computed lengths satisfy
`L[i] ≥ L[i-1] - 1` for every `i` with `1 ≤ i < m`. -/
theorem kernel_lengths_decrease_at_most_one (T read : List Char) (pointers : List Nat) (i : Nat)
    (h1 : 1 ≤ i) (hi : i < pointers.length) :
    (kernelLengths T read pointers).getD (i - 1) 0 - 1 ≤
      (kernelLengths T read pointers).getD i 0 := by
  obtain ⟨k, rfl⟩ : ∃ k, i = k + 1 := ⟨i - 1, by omega⟩
  rw [kernelLengths_getD T read pointers (k + 1) hi,
    kernelLengths_getD T read pointers (k + 1 - 1) (by omega)]
  simp only [Nat.add_sub_cancel]
  have h := extendAt_fst_ge T read pointers (k + 1)
  rw [kernelIter_l_succ] at h
  exact h

/-- Witness of C3 with the text `ACGTACGTNN`, the read `NNAC` and `i = 2`. -/
theorem kernel_lengths_decrease_at_most_one_witness :
    (kernelLengths "ACGTACGTNN".toList "NNAC".toList [8, 9, 0, 1]).getD (2 - 1) 0 - 1 ≤
      (kernelLengths "ACGTACGTNN".toList "NNAC".toList [8, 9, 0, 1]).getD 2 0 :=
  kernel_lengths_decrease_at_most_one "ACGTACGTNN".toList "NNAC".toList [8, 9, 0, 1] 2
    (by decide) (by decide)

/-- C2 as stated fails: with text `AAA`, read `AAA` and pointers `[0, 2, 2]` (all
inside the text) the kernel stores `L[1] = 2`, above `min (m - 1) (n - P[1]) = 1`. -/
theorem kernel_lengths_bound_counterexample :
    ([0, 2, 2] : List Nat).length = "AAA".toList.length ∧
      (∀ p ∈ ([0, 2, 2] : List Nat), p < "AAA".toList.length) ∧
      ¬ ((kernelLengths "AAA".toList "AAA".toList [0, 2, 2]).getD 1 0 ≤
          min ("AAA".toList.length - 1) ("AAA".toList.length - ([0, 2, 2] : List Nat).getD 1 0)) := by
  decide

/-- C2 (amended): when the pointers lie inside the text and `n + m ≤ 2 ^ 64`, every
length satisfies `L[i] ≤ m - i`, and `L[i] ≤ n - P[i]` unless the length carried over
from the previous position (`L[i-1] - 1`, or `0` at `i = 0`) is larger, in which case
`L[i]` is at most that carried length. -/
theorem kernel_lengths_bound (T read : List Char) (pointers : List Nat)
    (hlen : pointers.length = read.length) (hP : ∀ p ∈ pointers, p < T.length)
    (h64 : T.length + read.length ≤ sizeMod) (i : Nat) (hi : i < read.length) :
    (kernelLengths T read pointers).getD i 0 ≤ read.length - i ∧
      (kernelLengths T read pointers).getD i 0 ≤
        max (T.length - pointers.getD i 0)
          (if i = 0 then 0 else (kernelLengths T read pointers).getD (i - 1) 0 - 1) := by
  have hiP : i < pointers.length := by omega
  have hpos : pointers.getD i 0 < T.length := by
    rw [List.getD_eq_getElem _ _ hiP]
    exact hP _ (List.getElem_mem hiP)
  have hb := kernelIter_l_bound T read pointers i (by omega)
  rw [kernelLengths_getD T read pointers i hiP]
  constructor
  · have := extendAt_fst_bound T read pointers i (by omega)
    omega
  · have h := extendLoop_fst_text_bound T read i (pointers.getD i 0) hpos h64
      (read.length - (i + (kernelIter T read pointers i).l)) (kernelIter T read pointers i).l
      (kernelIter T read pointers i).n_Ns hb
    have hcarry : (kernelIter T read pointers i).l =
        (if i = 0 then 0 else (kernelLengths T read pointers).getD (i - 1) 0 - 1) := by
      rcases i with _ | k
      · simp [kernelIter_zero, kernelInit]
      · rw [kernelIter_l_succ, if_neg (by omega),
          kernelLengths_getD T read pointers (k + 1 - 1) (by omega)]
        simp
    rw [← hcarry]
    exact h

/-- Witness of the amended C2 with text `AAA`, read `AAA`, pointers `[0, 2, 2]`, `i = 1`. -/
theorem kernel_lengths_bound_witness :
    (kernelLengths "AAA".toList "AAA".toList [0, 2, 2]).getD 1 0 ≤ "AAA".toList.length - 1 ∧
      (kernelLengths "AAA".toList "AAA".toList [0, 2, 2]).getD 1 0 ≤
        max ("AAA".toList.length - ([0, 2, 2] : List Nat).getD 1 0)
          (if 1 = 0 then 0 else
            (kernelLengths "AAA".toList "AAA".toList [0, 2, 2]).getD (1 - 1) 0 - 1) :=
  kernel_lengths_bound "AAA".toList "AAA".toList [0, 2, 2] (by decide) (by decide)
    (by decide) 1 (by decide)

/-! ## The kernel computes the matching statistics from correct seeds -/

theorem getD_drop (xs : List Char) (i j : Nat) (d : Char) :
    (xs.drop i).getD j d = xs.getD (i + j) d := by
  simp [List.getD_eq_getElem?_getD, List.getElem?_drop]

theorem lcp_spec_lt (d : Char) :
    ∀ (a b : List Char) (j : Nat), j < lcp a b →
      j < a.length ∧ j < b.length ∧ a.getD j d = b.getD j d := by
  intro a
  induction a with
  | nil => intro b j h; simp [lcp] at h
  | cons x xs ih =>
    intro b j h
    cases b with
    | nil => simp [lcp] at h
    | cons y ys =>
      simp only [lcp] at h
      split at h
      · rename_i hxy
        cases j with
        | zero => simp [hxy]
        | succ j =>
          have := ih ys j (by omega)
          simpa using this
      · omega

theorem lcp_spec_stop (d : Char) :
    ∀ (a b : List Char),
      ¬ (lcp a b < a.length ∧ lcp a b < b.length ∧
          a.getD (lcp a b) d = b.getD (lcp a b) d) := by
  intro a
  induction a with
  | nil => intro b h; simp at h
  | cons x xs ih =>
    intro b h
    cases b with
    | nil => simp at h
    | cons y ys =>
      simp only [lcp] at h
      split at h
      · have := ih ys
        apply this
        simpa using h
      · rename_i hxy
        simp at h
        exact hxy h

theorem lcp_le_left (a b : List Char) : lcp a b ≤ a.length := by
  by_contra h
  have := (lcp_spec_lt (Char.ofNat 0) a b a.length (by omega)).1
  omega

theorem lcp_le_right (a b : List Char) : lcp a b ≤ b.length := by
  by_contra h
  have := (lcp_spec_lt (Char.ofNat 0) a b b.length (by omega)).2.1
  omega

/-- Started from a carried length not above the longest common prefix with the seed,
the `while` loop stops exactly at that longest common prefix. -/
theorem extend_fst_eq_lcp (T read : List Char) (i pos : Nat) (hT : T.length < sizeMod)
    (hpos : pos < sizeMod) :
    ∀ d l n_Ns, lcp (read.drop i) (T.drop pos) - l = d →
      l ≤ lcp (read.drop i) (T.drop pos) →
      (extend T read i pos l n_Ns).1 = lcp (read.drop i) (T.drop pos) := by
  have hA := lcp_le_left (read.drop i) (T.drop pos)
  have hB := lcp_le_right (read.drop i) (T.drop pos)
  simp only [List.length_drop] at hA hB
  intro d
  induction d with
  | zero =>
    intro l n_Ns hd hl
    have hla : l = lcp (read.drop i) (T.drop pos) := by omega
    rw [extend_unfold, if_neg]
    · exact hla
    · rintro ⟨h1, h2, h3⟩
      have hlt : pos + l < sizeMod := by omega
      rw [Nat.mod_eq_of_lt hlt] at h2 h3
      apply lcp_spec_stop (Char.ofNat 0) (read.drop i) (T.drop pos)
      rw [← hla]
      refine ⟨by simp only [List.length_drop]; omega, by simp only [List.length_drop]; omega, ?_⟩
      rw [getD_drop, getD_drop]
      exact h3
  | succ d ih =>
    intro l n_Ns hd hl
    have hlt : l < lcp (read.drop i) (T.drop pos) := by omega
    obtain ⟨h1, h2, h3⟩ := lcp_spec_lt (Char.ofNat 0) (read.drop i) (T.drop pos) l hlt
    simp only [List.length_drop] at h1 h2
    rw [getD_drop, getD_drop] at h3
    have hw : pos + l < sizeMod := by omega
    have hc : extendCond T read i pos l := by
      refine ⟨by omega, ?_, ?_⟩
      · rw [Nat.mod_eq_of_lt hw]; omega
      · rw [Nat.mod_eq_of_lt hw]; exact h3
    rw [extend_unfold, if_pos hc]
    exact ih (l + 1) _ (by omega) (by omega)

/-- True matching statistics lose at most one when the read position advances. -/
theorem msLength_succ_ge (T s : List Char) (i : Nat) :
    msLength T s i ≤ msLength T s (i + 1) + 1 := by
  by_cases h0 : msLength T s i = 0
  · omega
  · have hle : msLength T s i ≤ s.length - i := Nat.findGreatest_le _
    have hk : (s.drop i).take (msLength T s i) <:+: T :=
      Nat.findGreatest_spec (P := fun k => (s.drop i).take k <:+: T) (Nat.zero_le _)
        (by simp)
    have hsub : (s.drop (i + 1)).take (msLength T s i - 1) <:+: T := by
      have hEq : (s.drop (i + 1)).take (msLength T s i - 1) =
          ((s.drop i).take (msLength T s i)).drop 1 := by
        rw [List.drop_take, List.drop_drop]
      rw [hEq]
      exact (List.drop_suffix 1 _).isInfix.trans hk
    have := Nat.le_findGreatest (P := fun k => (s.drop (i + 1)).take k <:+: T)
      (show msLength T s i - 1 ≤ s.length - (i + 1) by omega) hsub
    unfold msLength at this ⊢
    omega

/-- With correct seeds, the carried length never exceeds the MS length, and every
iteration stores the MS length. -/
theorem kernel_seed_invariant (T read : List Char) (pointers : List Nat)
    (hT : T.length < sizeMod) (hP64 : ∀ p ∈ pointers, p < sizeMod)
    (hlen : pointers.length = read.length) (hseed : IsMsSeed T read pointers) :
    ∀ k, k < read.length →
      (kernelIter T read pointers k).l ≤ msLength T read k ∧
        (extendAt T read pointers k).1 = msLength T read k := by
  have hpos : ∀ k, k < read.length → pointers.getD k 0 < sizeMod := by
    intro k hk
    have hkP : k < pointers.length := by omega
    rw [List.getD_eq_getElem _ _ hkP]
    exact hP64 _ (List.getElem_mem hkP)
  have hstep : ∀ k, k < read.length → (kernelIter T read pointers k).l ≤ msLength T read k →
      (extendAt T read pointers k).1 = msLength T read k := by
    intro k hk hl
    rw [← hseed k hk] at hl ⊢
    exact extend_fst_eq_lcp T read k _ hT (hpos k hk) _ _ _ rfl hl
  intro k
  induction k with
  | zero =>
    intro hk
    have h0 : (kernelIter T read pointers 0).l ≤ msLength T read 0 := by
      simp [kernelIter_zero, kernelInit]
    exact ⟨h0, hstep 0 hk h0⟩
  | succ k ih =>
    intro hk
    obtain ⟨_, hprev⟩ := ih (by omega)
    have hl : (kernelIter T read pointers (k + 1)).l ≤ msLength T read (k + 1) := by
      rw [kernelIter_l_succ, hprev]
      have := msLength_succ_ge T read k
      omega
    exact ⟨hl, hstep (k + 1) hk hl⟩

/-- C1: for a correct MS seed sequence `P` (64-bit values, text shorter than `2 ^ 64`),
the kernel stores at every `i < m` the length of the longest prefix of `s[i..]` that
occurs in `T`, which is also the longest common prefix of `s[i..]` and `T[P[i]..]`. -/
theorem kernel_lengths_eq_ms (T read : List Char) (pointers : List Nat)
    (hT : T.length < sizeMod) (hP64 : ∀ p ∈ pointers, p < sizeMod)
    (hlen : pointers.length = read.length) (hseed : IsMsSeed T read pointers)
    (i : Nat) (hi : i < read.length) :
    (kernelLengths T read pointers).getD i 0 = msLength T read i ∧
      (kernelLengths T read pointers).getD i 0 =
        lcp (read.drop i) (T.drop (pointers.getD i 0)) := by
  have h := (kernel_seed_invariant T read pointers hT hP64 hlen hseed i hi).2
  rw [kernelLengths_getD T read pointers i (by omega), hseed i hi]
  exact ⟨h, h⟩

/-- Witness of C1 with text `ACGT`, read `CGA` and seeds `[1, 2, 0]`, at `i = 0`. -/
theorem kernel_lengths_eq_ms_witness :
    (kernelLengths "ACGT".toList "CGA".toList [1, 2, 0]).getD 0 0 =
        msLength "ACGT".toList "CGA".toList 0 ∧
      (kernelLengths "ACGT".toList "CGA".toList [1, 2, 0]).getD 0 0 =
        lcp ("CGA".toList.drop 0) ("ACGT".toList.drop (([1, 2, 0] : List Nat).getD 0 0)) :=
  kernel_lengths_eq_ms "ACGT".toList "CGA".toList [1, 2, 0] (by decide) (by decide)
    (by decide) (by decide) 0 (by decide)

/-! ## The longest MEM -/

theorem kernelBody_mem (T read : List Char) (pointers : List Nat) (st : KernelState) (i : Nat)
    (hi : i < st.lengths.length) :
    ((extend T read i (pointers.getD i 0) st.l st.n_Ns).1 > st.mem_len ∧
        (extend T read i (pointers.getD i 0) st.l st.n_Ns).2 <
          (extend T read i (pointers.getD i 0) st.l st.n_Ns).1 ∧
        (kernelBody T read pointers st i).mem_len =
          (extend T read i (pointers.getD i 0) st.l st.n_Ns).1 ∧
        (kernelBody T read pointers st i).mem_idx = i ∧
        (kernelBody T read pointers st i).mem_pos = pointers.getD i 0) ∨
      (¬ ((extend T read i (pointers.getD i 0) st.l st.n_Ns).1 > st.mem_len ∧
          (extend T read i (pointers.getD i 0) st.l st.n_Ns).2 <
            (extend T read i (pointers.getD i 0) st.l st.n_Ns).1) ∧
        (kernelBody T read pointers st i).mem_len = st.mem_len ∧
        (kernelBody T read pointers st i).mem_idx = st.mem_idx ∧
        (kernelBody T read pointers st i).mem_pos = st.mem_pos) := by
  have hget : ∀ v : Nat, (st.lengths.set i v).getD i 0 = v := by
    intro v
    rw [List.getD_eq_getElem?_getD, List.getElem?_set_self hi]
    rfl
  simp only [kernelBody, hget]
  split
  · rename_i h
    exact Or.inl ⟨h.1, h.2, rfl, rfl, rfl⟩
  · rename_i h
    exact Or.inr ⟨h, rfl, rfl, rfl⟩

/-- Invariant of the longest-MEM variables after `k` iterations. -/
theorem kernelIter_mem_invariant (T read : List Char) (pointers : List Nat) :
    ∀ k, k ≤ pointers.length →
      (∀ j, j < k → (extendAt T read pointers j).2 < (extendAt T read pointers j).1 →
        (extendAt T read pointers j).1 ≤ (kernelIter T read pointers k).mem_len ∧
          ((extendAt T read pointers j).1 = (kernelIter T read pointers k).mem_len →
            (kernelIter T read pointers k).mem_idx ≤ j)) ∧
      (((kernelIter T read pointers k).mem_len = 0 ∧
          (kernelIter T read pointers k).mem_idx = 0 ∧
          (kernelIter T read pointers k).mem_pos = 0) ∨
        ((kernelIter T read pointers k).mem_idx < k ∧
          (extendAt T read pointers (kernelIter T read pointers k).mem_idx).2 <
            (extendAt T read pointers (kernelIter T read pointers k).mem_idx).1 ∧
          (kernelIter T read pointers k).mem_len =
            (extendAt T read pointers (kernelIter T read pointers k).mem_idx).1 ∧
          (kernelIter T read pointers k).mem_pos =
            pointers.getD (kernelIter T read pointers k).mem_idx 0)) := by
  intro k
  induction k with
  | zero =>
    intro _
    refine ⟨fun j hj => by omega, Or.inl ?_⟩
    simp [kernelIter_zero, kernelInit]
  | succ k ih =>
    intro hk
    obtain ⟨ih1, ih2⟩ := ih (by omega)
    have hlen : k < (kernelIter T read pointers k).lengths.length := by
      rw [kernelIter_lengths_length]; omega
    have hb := kernelBody_mem T read pointers (kernelIter T read pointers k) k hlen
    rw [← kernelIter_succ] at hb
    change (((extendAt T read pointers k).1 > _ ∧
        (extendAt T read pointers k).2 < (extendAt T read pointers k).1 ∧
        _ = (extendAt T read pointers k).1 ∧ _ ∧ _) ∨
      (¬ ((extendAt T read pointers k).1 > _ ∧
        (extendAt T read pointers k).2 < (extendAt T read pointers k).1) ∧ _ ∧ _ ∧ _)) at hb
    rcases hb with ⟨hgt, hg, hml, hmi, hmp⟩ | ⟨hno, hml, hmi, hmp⟩
    · constructor
      · intro j hj hgj
        rw [hml, hmi]
        by_cases hjk : j = k
        · subst hjk
          exact ⟨Nat.le_refl _, fun _ => Nat.le_refl _⟩
        · have := (ih1 j (by omega) hgj).1
          exact ⟨by omega, fun h => by omega⟩
      · right
        rw [hml, hmi, hmp]
        exact ⟨by omega, hg, rfl, rfl⟩
    · constructor
      · intro j hj hgj
        rw [hml, hmi]
        by_cases hjk : j = k
        · subst hjk
          refine ⟨by omega, fun _ => ?_⟩
          rcases ih2 with h0 | h1
          · omega
          · omega
        · exact ih1 j (by omega) hgj
      · rw [hml, hmi, hmp]
        rcases ih2 with h0 | ⟨h1, h2, h3, h4⟩
        · exact Or.inl h0
        · exact Or.inr ⟨by omega, h2, h3, h4⟩

theorem passesGuard_iff (T read : List Char) (pointers : List Nat) (i : Nat) :
    PassesGuard T read pointers i ↔
      i < pointers.length ∧
        (extendAt T read pointers i).2 < (extendAt T read pointers i).1 := by
  unfold PassesGuard
  constructor
  · rintro ⟨hi, _, h⟩
    rw [kernelLengths_getD T read pointers i hi, nNsAt_eq] at h
    exact ⟨hi, h⟩
  · rintro ⟨hi, h⟩
    rw [kernelLengths_getD T read pointers i hi, nNsAt_eq]
    exact ⟨hi, by omega, h⟩

/-- C4: if some position has `L[i] > 0` and passes the non-N guard, the longest-MEM
record has as `mem_idx` the smallest guard-passing position maximising `L`, with
`mem_len = L[mem_idx]` and `mem_pos = P[mem_idx]`; otherwise the record is `(0, 0, 0)`. -/
theorem longestMem_spec (T read : List Char) (pointers : List Nat) :
    ((∃ i, PassesGuard T read pointers i) →
        PassesGuard T read pointers (longestMem T read pointers).idx ∧
        (longestMem T read pointers).len =
          (kernelLengths T read pointers).getD (longestMem T read pointers).idx 0 ∧
        (longestMem T read pointers).pos =
          pointers.getD (longestMem T read pointers).idx 0 ∧
        ∀ j, PassesGuard T read pointers j →
          (kernelLengths T read pointers).getD j 0 ≤
              (kernelLengths T read pointers).getD (longestMem T read pointers).idx 0 ∧
            ((kernelLengths T read pointers).getD j 0 =
                (kernelLengths T read pointers).getD (longestMem T read pointers).idx 0 →
              (longestMem T read pointers).idx ≤ j)) ∧
      ((¬ ∃ i, PassesGuard T read pointers i) →
        longestMem T read pointers = { pos := 0, len := 0, idx := 0 }) := by
  obtain ⟨h1, h2⟩ := kernelIter_mem_invariant T read pointers pointers.length (Nat.le_refl _)
  have hidx : (longestMem T read pointers).idx = (kernelIter T read pointers pointers.length).mem_idx := rfl
  have hlen : (longestMem T read pointers).len = (kernelIter T read pointers pointers.length).mem_len := rfl
  have hpos : (longestMem T read pointers).pos = (kernelIter T read pointers pointers.length).mem_pos := rfl
  constructor
  · rintro ⟨i, hi⟩
    rw [passesGuard_iff] at hi
    have hi1 := (h1 i hi.1 hi.2).1
    rcases h2 with h0 | ⟨ha, hb, hc, hd⟩
    · omega
    · have hM : PassesGuard T read pointers (longestMem T read pointers).idx := by
        rw [passesGuard_iff, hidx]; exact ⟨ha, hb⟩
      refine ⟨hM, ?_, ?_, ?_⟩
      · rw [hlen, hidx, kernelLengths_getD T read pointers _ ha]; exact hc
      · rw [hpos, hidx]; exact hd
      · intro j hj
        rw [passesGuard_iff] at hj
        rw [hidx, kernelLengths_getD T read pointers _ ha,
          kernelLengths_getD T read pointers j hj.1, ← hc]
        exact h1 j hj.1 hj.2
  · intro hnone
    rcases h2 with ⟨a, b, c⟩ | ⟨ha, hb, _, _⟩
    · rw [← hlen] at a
      rw [← hidx] at b
      rw [← hpos] at c
      generalize longestMem T read pointers = M at a b c
      cases M
      simp_all
    · exact absurd ⟨_, (passesGuard_iff T read pointers _).2 ⟨ha, hb⟩⟩ hnone

/-- Witness of C4: text `ACGTACGTNN`, read `NNAC` give `mem_idx = 2`, `mem_len = 2`;
position `0` matches `NN` with length 2 but fails the guard. -/
theorem longestMem_spec_witness :
    longestMem "ACGTACGTNN".toList "NNAC".toList [8, 9, 0, 1] = { pos := 0, len := 2, idx := 2 } ∧
      (kernelLengths "ACGTACGTNN".toList "NNAC".toList [8, 9, 0, 1]).getD 0 0 = 2 ∧
      ¬ PassesGuard "ACGTACGTNN".toList "NNAC".toList [8, 9, 0, 1] 0 ∧
      PassesGuard "ACGTACGTNN".toList "NNAC".toList [8, 9, 0, 1]
        (longestMem "ACGTACGTNN".toList "NNAC".toList [8, 9, 0, 1]).idx :=
  ⟨by decide, by decide, by decide,
    ((longestMem_spec "ACGTACGTNN".toList "NNAC".toList [8, 9, 0, 1]).1
      ⟨2, by decide⟩).1⟩

/-! ## The SSS pass -/

theorem collectLoop_eq (read : List Char) (hi : Nat) :
    ∀ fuel j acc, collectLoop read hi fuel j acc =
      acc ++ (List.range' j (min fuel (hi + 1 - j))).map (seqAt read) := by
  intro fuel
  induction fuel with
  | zero => intro j acc; simp [collectLoop]
  | succ fuel ih =>
    intro j acc
    simp only [collectLoop]
    split
    · rename_i hj
      rw [ih]
      have hmin : min (fuel + 1) (hi + 1 - j) = min fuel (hi + 1 - (j + 1)) + 1 := by omega
      rw [hmin, List.range'_succ]
      simp
    · rename_i hj
      have hmin : min (fuel + 1) (hi + 1 - j) = 0 := by omega
      rw [hmin]
      simp

theorem sampleSpecific_eq (read : List Char) (lengths : List Nat) (i : Nat) (hi : 1 ≤ i) :
    sampleSpecific read lengths i =
      (List.range' (i - 1) (lengths.getD (i - 1) 0 + 2)).map (seqAt read) := by
  unfold sampleSpecific
  rw [collectLoop_eq]
  have hmin : min (i + lengths.getD (i - 1) 0 + 1 - (i - 1))
      (i + lengths.getD (i - 1) 0 + 1 - (i - 1)) = lengths.getD (i - 1) 0 + 2 := by omega
  rw [hmin]
  simp

theorem sampleSpecific_length (read : List Char) (lengths : List Nat) (i : Nat) (hi : 1 ≤ i) :
    (sampleSpecific read lengths i).length = lengths.getD (i - 1) 0 + 2 := by
  rw [sampleSpecific_eq read lengths i hi]
  simp

theorem sssBody_records (read : List Char) (pointers lengths : List Nat) (st : SssState)
    (i : Nat) (hi : 1 ≤ i) :
    (sssBody read pointers lengths st i).specific_string_per_read =
      st.specific_string_per_read ++
        (if lengths.getD (i - 1) 0 ≤ lengths.getD i 0 then [sssRecord read pointers lengths i]
         else []) := by
  have hne : (sampleSpecific read lengths i).length ≠ 0 := by
    rw [sampleSpecific_length read lengths i hi]; omega
  unfold sssBody
  by_cases h : lengths.getD (i - 1) 0 ≤ lengths.getD i 0
  · rw [if_pos h, if_pos h]
    simp only [if_pos hne]
    rfl
  · rw [if_neg h, if_neg h, List.append_nil]

theorem sss_foldl_records (read : List Char) (pointers lengths : List Nat) :
    ∀ (is : List Nat) (st : SssState), (∀ i ∈ is, 1 ≤ i) →
      (is.foldl (sssBody read pointers lengths) st).specific_string_per_read =
        st.specific_string_per_read ++
          (is.filter (fun i => decide (lengths.getD (i - 1) 0 ≤ lengths.getD i 0))).map
            (sssRecord read pointers lengths) := by
  intro is
  induction is with
  | nil => intro st _; simp
  | cons i is ih =>
    intro st h
    rw [List.foldl_cons, ih _ (fun j hj => h j (List.mem_cons_of_mem _ hj)),
      sssBody_records read pointers lengths st i (h i (List.mem_cons_self _ _))]
    by_cases hc : lengths.getD (i - 1) 0 ≤ lengths.getD i 0
    · rw [if_pos hc, List.filter_cons_of_pos (by simpa using hc)]
      simp only [List.map_cons, List.append_assoc, List.singleton_append]
    · rw [if_neg hc, List.filter_cons_of_neg (by simpa using hc), List.append_nil]

/-- The per-read list is the list of records of the ascent positions, in order. -/
theorem sssLoop_records (read : List Char) (pointers lengths : List Nat) (table : ss_map_type) :
    (sssLoop read pointers lengths table).specific_string_per_read =
      ((List.range' 1 (lengths.length - 1)).filter
        (fun i => decide (lengths.getD (i - 1) 0 ≤ lengths.getD i 0))).map
          (sssRecord read pointers lengths) := by
  unfold sssLoop
  rw [sss_foldl_records read pointers lengths _ _ (fun i hi => by
    rw [List.mem_range'_1] at hi; exact hi.1)]
  simp

/-- Membership in the per-read list of `matching_statistics`. -/
theorem mem_sss_iff (query : List Char → List Nat) (T read : List Char)
    (table : ss_map_type) (r : ss_type) :
    r ∈ (matching_statistics query T read table).specific_string_per_read ↔
      ∃ i, 1 ≤ i ∧ i < (query read).length ∧
        (kernelLengths T read (query read)).getD (i - 1) 0 ≤
          (kernelLengths T read (query read)).getD i 0 ∧
        r = sssRecord read (query read) (kernelLengths T read (query read)) i := by
  unfold matching_statistics
  simp only [sssLoop_records, List.mem_map, List.mem_filter, List.mem_range'_1,
    decide_eq_true_eq, kernelLengths_length]
  constructor
  · rintro ⟨i, ⟨⟨h1, h2⟩, h3⟩, rfl⟩
    exact ⟨i, h1, by omega, h3, rfl⟩
  · rintro ⟨i, h1, h2, h3, rfl⟩
    exact ⟨i, ⟨⟨h1, by omega⟩, h3⟩, rfl⟩

/-- C5: the per-read SSS list holds exactly one record for each `i` in `1..m-1` with
`L[i] ≥ L[i-1]`, in increasing order of `i`, and none else; the record for `i` has
`read_pos = i - 1`, `ref_pos = P[i-1]` and `l = |seq| = L[i-1] + 2`.  A strictly
decreasing `L` and a read of length at most one give no record. -/
theorem sss_list_spec (query : List Char → List Nat) (T read : List Char)
    (table : ss_map_type) :
    ((matching_statistics query T read table).specific_string_per_read.map
        (fun r => r.read_pos + 1) =
      (List.range' 1 ((query read).length - 1)).filter
        (fun i => decide ((kernelLengths T read (query read)).getD (i - 1) 0 ≤
          (kernelLengths T read (query read)).getD i 0))) ∧
    (∀ r ∈ (matching_statistics query T read table).specific_string_per_read,
      r.ref_pos = (query read).getD r.read_pos 0 ∧ r.l = r.seq.length ∧
        r.l = (kernelLengths T read (query read)).getD r.read_pos 0 + 2) ∧
    ((∀ i, 1 ≤ i → i < (query read).length →
        (kernelLengths T read (query read)).getD i 0 <
          (kernelLengths T read (query read)).getD (i - 1) 0) →
      (matching_statistics query T read table).specific_string_per_read = []) ∧
    ((query read).length ≤ 1 →
      (matching_statistics query T read table).specific_string_per_read = []) := by
  refine ⟨?_, ?_, ?_, ?_⟩
  · unfold matching_statistics
    simp only [sssLoop_records, kernelLengths_length, List.map_map]
    rw [List.map_congr_left (g := id), List.map_id]
    intro i hi
    rw [List.mem_filter, List.mem_range'_1] at hi
    simp only [Function.comp, sssRecord, id]
    omega
  · intro r hr
    rw [mem_sss_iff] at hr
    obtain ⟨i, h1, _, _, rfl⟩ := hr
    exact ⟨rfl, rfl, sampleSpecific_length read _ i h1⟩
  · intro hdec
    rw [List.eq_nil_iff_forall_not_mem]
    intro r hr
    rw [mem_sss_iff] at hr
    obtain ⟨i, h1, h2, h3, _⟩ := hr
    have := hdec i h1 h2
    omega
  · intro hlen
    rw [List.eq_nil_iff_forall_not_mem]
    intro r hr
    rw [mem_sss_iff] at hr
    obtain ⟨i, h1, h2, _, _⟩ := hr
    omega

/-- Witness of C5: the read `ACGT` on the text `ACGTACGTNN` has `L = [4, 3, 2, 1]`,
strictly decreasing, and emits no SSS. -/
theorem sss_list_spec_witness :
    kernelLengths "ACGTACGTNN".toList "ACGT".toList [0, 1, 2, 3] = [4, 3, 2, 1] ∧
      (matching_statistics (fun _ => [0, 1, 2, 3]) "ACGTACGTNN".toList "ACGT".toList
        []).specific_string_per_read = [] :=
  ⟨by decide,
    (sss_list_spec (fun _ => [0, 1, 2, 3]) "ACGTACGTNN".toList "ACGT".toList []).2.2.1
      (by decide)⟩

theorem sssRecord_seq_head (read : List Char) (pointers lengths : List Nat) (i : Nat)
    (hi : 1 ≤ i) :
    (sssRecord read pointers lengths i).seq.getD 0 (Char.ofNat 0) = seqAt read (i - 1) := by
  unfold sssRecord
  simp only []
  rw [sampleSpecific_eq read lengths i hi, List.range'_succ]
  rfl

/-- The SSS loop reads the read buffer at indices `i - 1 .. i + L[i-1]`, all of them at
most `m`: the last one can be `m` itself, the position of the NUL terminator. -/
theorem sss_index_le (query : List Char → List Nat) (T read : List Char)
    (table : ss_map_type) (hlen : (query read).length = read.length) (r : ss_type)
    (hr : r ∈ (matching_statistics query T read table).specific_string_per_read) :
    r.read_pos + r.l ≤ read.length + 1 ∧
      ∀ j, j < r.l → r.seq.getD j (Char.ofNat 0) = seqAt read (r.read_pos + j) := by
  rw [mem_sss_iff] at hr
  obtain ⟨i, h1, h2, h3, rfl⟩ := hr
  rw [kernelLengths_getD T read _ i h2, kernelLengths_getD T read _ (i - 1) (by omega)] at h3
  have hb := extendAt_fst_bound T read (query read) i (by omega)
  have hl : (sssRecord read (query read) (kernelLengths T read (query read)) i).l =
      (extendAt T read (query read) (i - 1)).1 + 2 := by
    unfold sssRecord
    simp only []
    rw [sampleSpecific_length read _ i h1, kernelLengths_getD T read _ (i - 1) (by omega)]
  constructor
  · rw [hl]
    simp only [sssRecord]
    omega
  · intro j hj
    simp only [sssRecord] at hj ⊢
    rw [sampleSpecific_eq read _ i h1] at hj ⊢
    rw [List.getD_eq_getElem?_getD, List.getElem?_map, List.getElem?_range' _ _ (by simpa using hj)]
    simp

/-- C6 (the code at the failing input): with text `A`, read `AA` and the correct seeds
`[0, 0]` the kernel stores `L = [1, 1]`, and the SSS loop at `i = 1` reads the indices
`0, 1, 2` of a read of length `2`: the record has `l = 3`, its last character is the
NUL terminator, and `read_pos + l = 3 > m = 2`. -/
theorem sss_reads_past_read_end :
    IsMsSeed "A".toList "AA".toList [0, 0] ∧
      kernelLengths "A".toList "AA".toList [0, 0] = [1, 1] ∧
      (matching_statistics (fun _ => [0, 0]) "A".toList "AA".toList
        []).specific_string_per_read =
        [{ seq := ['A', 'A', Char.ofNat 0], l := 3, ref_pos := 0, read_pos := 0 }] ∧
      ¬ (0 + 3 ≤ "AA".toList.length) := by
  decide

/-- C7 as stated fails: with text `A`, read `CA` and pointers `[0, 0]` (inside the text,
and correct seeds) the record emitted at `i = 1` is `CA` with `ref_pos = 0`, and its
first character `C` differs from `text_at(0) = A`. -/
theorem sss_first_char_counterexample :
    (∀ p ∈ ([0, 0] : List Nat), p < "A".toList.length) ∧
      IsMsSeed "A".toList "CA".toList [0, 0] ∧
      ∃ r ∈ (matching_statistics (fun _ => [0, 0]) "A".toList "CA".toList
          []).specific_string_per_read,
        r.seq.getD 0 (Char.ofNat 0) ≠ charAt "A".toList r.ref_pos := by
  decide

/-- C7 (amended): for pointers inside the text (`n + m ≤ 2 ^ 64`), an emitted SSS record
with `L[read_pos] ≥ 1` has `seq[0] = text_at(ref_pos)` whenever the pointers are correct
MS seeds, or nothing was carried into `read_pos` (`read_pos = 0` or
`L[read_pos - 1] ≤ 1`) so that the first character was compared at `read_pos`. -/
theorem sss_first_char (query : List Char → List Nat) (T read : List Char)
    (table : ss_map_type) (hlen : (query read).length = read.length)
    (hP : ∀ p ∈ query read, p < T.length) (h64 : T.length + read.length ≤ sizeMod)
    (r : ss_type)
    (hr : r ∈ (matching_statistics query T read table).specific_string_per_read)
    (hL : 1 ≤ (kernelLengths T read (query read)).getD r.read_pos 0)
    (hcase : IsMsSeed T read (query read) ∨ r.read_pos = 0 ∨
      (kernelLengths T read (query read)).getD (r.read_pos - 1) 0 ≤ 1) :
    r.seq.getD 0 (Char.ofNat 0) = charAt T r.ref_pos := by
  rw [mem_sss_iff] at hr
  obtain ⟨i, h1, h2, _, rfl⟩ := hr
  rw [sssRecord_seq_head read _ _ i h1]
  simp only [sssRecord] at hL hcase ⊢
  have hk : i - 1 < (query read).length := by omega
  have hkr : i - 1 < read.length := by omega
  have hpos : (query read).getD (i - 1) 0 < T.length := by
    rw [List.getD_eq_getElem _ _ hk]
    exact hP _ (List.getElem_mem hk)
  rw [kernelLengths_getD T read _ (i - 1) hk] at hL
  have hcarry : IsMsSeed T read (query read) ∨ (kernelIter T read (query read) (i - 1)).l = 0 := by
    rcases hcase with hs | h0 | hprev
    · exact Or.inl hs
    · right
      rw [h0]
      simp [kernelIter_zero, kernelInit]
    · right
      by_cases h0 : i - 1 = 0
      · rw [h0]
        simp [kernelIter_zero, kernelInit]
      · obtain ⟨k, hk'⟩ : ∃ k, i - 1 = k + 1 := ⟨i - 1 - 1, by omega⟩
        rw [hk'] at hprev ⊢
        rw [kernelLengths_getD T read _ (k + 1 - 1) (by omega)] at hprev
        rw [kernelIter_l_succ]
        simp only [Nat.add_sub_cancel] at hprev
        omega
  rcases hcarry with hs | h0
  · have hseed := (kernel_seed_invariant T read (query read) (by omega)
      (fun p hp => by have := hP p hp; omega) hlen hs (i - 1) hkr).2
    rw [← hs (i - 1) hkr] at hseed
    rw [hseed] at hL
    have h := (lcp_spec_lt (Char.ofNat 0) (read.drop (i - 1))
      (T.drop ((query read).getD (i - 1) 0)) 0 (by omega)).2.2
    rw [getD_drop, getD_drop, Nat.add_zero, Nat.add_zero] at h
    exact h
  · have hE : (extendAt T read (query read) (i - 1)).1 =
        (extend T read (i - 1) ((query read).getD (i - 1) 0) 0
          (kernelIter T read (query read) (i - 1)).n_Ns).1 := by
      unfold extendAt
      rw [h0]
    rw [hE, extend_unfold] at hL
    by_cases hc : extendCond T read (i - 1) ((query read).getD (i - 1) 0) 0
    · obtain ⟨_, _, h3⟩ := hc
      have hw : (query read).getD (i - 1) 0 + 0 < sizeMod := by omega
      rw [Nat.mod_eq_of_lt hw] at h3
      exact h3
    · rw [if_neg hc] at hL
      simp at hL

/-- Witness of the amended C7: text `TTTTAGCG`, read `ACG`, seeds `[4, 6, 7]`; the
record emitted at `i = 1` is `ACG` with `ref_pos = 4`, and `A = text_at(4)`. -/
theorem sss_first_char_witness :
    ({ seq := ['A', 'C', 'G'], l := 3, ref_pos := 4, read_pos := 0 } : ss_type) ∈
        (matching_statistics (fun _ => [4, 6, 7]) "TTTTAGCG".toList "ACG".toList
          []).specific_string_per_read ∧
      ({ seq := ['A', 'C', 'G'], l := 3, ref_pos := 4, read_pos := 0 } :
          ss_type).seq.getD 0 (Char.ofNat 0) =
        charAt "TTTTAGCG".toList
          ({ seq := ['A', 'C', 'G'], l := 3, ref_pos := 4, read_pos := 0 } : ss_type).ref_pos :=
  ⟨by decide,
    sss_first_char (fun _ => [4, 6, 7]) "TTTTAGCG".toList "ACG".toList []
      (by decide) (by decide) (by decide)
      { seq := ['A', 'C', 'G'], l := 3, ref_pos := 4, read_pos := 0 }
      (by decide) (by decide) (Or.inl (by decide))⟩

/-! ## The SSS table and its merge -/

theorem ssLookup_ssModify (f : Nat × Finset Nat → Nat × Finset Nat) :
    ∀ (m : ss_map_type) (k k' : List Char),
      ssLookup (ssModify m k f) k' = if k = k' then f (ssLookup m k) else ssLookup m k' := by
  intro m
  induction m with
  | nil => intro k k'; simp [ssModify, ssLookup]
  | cons e rest ih =>
    intro k k'
    obtain ⟨a, v⟩ := e
    by_cases hak : a = k
    · subst hak
      simp only [ssModify, ssLookup, if_true]
      split <;> rfl
    · simp only [ssModify, ssLookup, if_neg hak, ih]
      by_cases hak' : a = k'
      · have : ¬ k = k' := fun h => hak (hak'.trans h.symm)
        simp [hak', this]
      · simp [hak']

theorem mem_keys_ssModify (f : Nat × Finset Nat → Nat × Finset Nat) :
    ∀ (m : ss_map_type) (k s : List Char),
      s ∈ (ssModify m k f).map Prod.fst ↔ s ∈ m.map Prod.fst ∨ s = k := by
  intro m
  induction m with
  | nil => intro k s; simp [ssModify]
  | cons e rest ih =>
    intro k s
    obtain ⟨a, v⟩ := e
    by_cases hak : a = k
    · subst hak
      simp only [ssModify, if_true, List.map_cons, List.mem_cons]
      tauto
    · simp only [ssModify, if_neg hak, List.map_cons, List.mem_cons, ih]
      tauto

theorem nodup_keys_ssModify (f : Nat × Finset Nat → Nat × Finset Nat) :
    ∀ (m : ss_map_type) (k : List Char), (m.map Prod.fst).Nodup →
      ((ssModify m k f).map Prod.fst).Nodup := by
  intro m
  induction m with
  | nil => intro k _; simp [ssModify]
  | cons e rest ih =>
    intro k h
    obtain ⟨a, v⟩ := e
    simp only [List.map_cons, List.nodup_cons] at h
    by_cases hak : a = k
    · subst hak
      simp only [ssModify, if_true, List.map_cons, List.nodup_cons]
      exact h
    · simp only [ssModify, if_neg hak, List.map_cons, List.nodup_cons]
      refine ⟨?_, ih k h.2⟩
      rw [mem_keys_ssModify]
      rintro (h1 | h1)
      · exact h.1 h1
      · exact hak h1

theorem ssLookup_of_not_mem :
    ∀ (m : ss_map_type) (s : List Char), s ∉ m.map Prod.fst → ssLookup m s = (0, ∅) := by
  intro m
  induction m with
  | nil => intro s _; rfl
  | cons e rest ih =>
    intro s h
    obtain ⟨a, v⟩ := e
    simp only [List.map_cons, List.mem_cons, not_or] at h
    simp only [ssLookup, if_neg (Ne.symm h.1)]
    exact ih s h.2

theorem tally_nil (s : List Char) : tally [] s = (0, ∅) := rfl

theorem tally_append (es₁ es₂ : List ss_type) (s : List Char) :
    tally (es₁ ++ es₂) s = vadd (tally es₁ s) (tally es₂ s) := by
  simp [tally, vadd, List.filter_append, List.toFinset_append]

theorem vadd_zero (a : Nat × Finset Nat) : vadd a (0, ∅) = a := by
  simp [vadd]

theorem represents_nil : Represents [] [] := by
  refine ⟨by simp, fun s => ⟨rfl, by simp⟩⟩

theorem represents_recordEmission (m : ss_map_type) (es : List ss_type) (e : ss_type)
    (h : Represents m es) :
    Represents (recordEmission m e.seq e.ref_pos) (es ++ [e]) := by
  obtain ⟨hnd, hrep⟩ := h
  refine ⟨nodup_keys_ssModify _ _ _ (nodup_keys_ssModify _ _ _ hnd), fun s => ⟨?_, ?_⟩⟩
  · unfold recordEmission
    rw [ssLookup_ssModify, ssLookup_ssModify, ssLookup_ssModify, if_pos rfl, tally_append,
      (hrep e.seq).1, (hrep s).1]
    by_cases hs : e.seq = s
    · subst hs
      simp [tally, vadd, Finset.union_comm, Finset.insert_eq]
    · rw [if_neg hs, if_neg hs]
      simp [tally, vadd, hs]
  · unfold recordEmission
    rw [mem_keys_ssModify, mem_keys_ssModify, (hrep s).2]
    constructor
    · rintro ((⟨e', he', hs⟩ | hs) | hs)
      · exact ⟨e', List.mem_append_left _ he', hs⟩
      · exact ⟨e, by simp, hs.symm⟩
      · exact ⟨e, by simp, hs.symm⟩
    · rintro ⟨e', he', hs⟩
      rw [List.mem_append, List.mem_singleton] at he'
      rcases he' with he' | rfl
      · exact Or.inl (Or.inl ⟨e', he', hs⟩)
      · exact Or.inr hs.symm

theorem sssBody_table (read : List Char) (pointers lengths : List Nat) (st : SssState)
    (i : Nat) (hi : 1 ≤ i) :
    (sssBody read pointers lengths st i).sample_specifics =
      if lengths.getD (i - 1) 0 ≤ lengths.getD i 0 then
        recordEmission st.sample_specifics (sssRecord read pointers lengths i).seq
          (sssRecord read pointers lengths i).ref_pos
      else st.sample_specifics := by
  have hne : (sampleSpecific read lengths i).length ≠ 0 := by
    rw [sampleSpecific_length read lengths i hi]; omega
  unfold sssBody
  by_cases h : lengths.getD (i - 1) 0 ≤ lengths.getD i 0
  · rw [if_pos h, if_pos h]
    simp only [if_pos hne]
    rfl
  · rw [if_neg h, if_neg h]

theorem represents_sss_foldl (read : List Char) (pointers lengths : List Nat) :
    ∀ (is : List Nat) (st : SssState) (es : List ss_type), (∀ i ∈ is, 1 ≤ i) →
      Represents st.sample_specifics es →
      Represents (is.foldl (sssBody read pointers lengths) st).sample_specifics
        (es ++ (is.filter (fun i => decide (lengths.getD (i - 1) 0 ≤ lengths.getD i 0))).map
          (sssRecord read pointers lengths)) := by
  intro is
  induction is with
  | nil => intro st es _ h; simpa using h
  | cons i is ih =>
    intro st es h hrep
    have hi := h i (List.mem_cons_self _ _)
    rw [List.foldl_cons]
    by_cases hc : lengths.getD (i - 1) 0 ≤ lengths.getD i 0
    · have hstep : Represents (sssBody read pointers lengths st i).sample_specifics
          (es ++ [sssRecord read pointers lengths i]) := by
        rw [sssBody_table read pointers lengths st i hi, if_pos hc]
        exact represents_recordEmission _ _ _ hrep
      have := ih _ _ (fun j hj => h j (List.mem_cons_of_mem _ hj)) hstep
      rw [List.filter_cons_of_pos (by simpa using hc)]
      simpa only [List.map_cons, List.append_assoc, List.singleton_append] using this
    · have hstep : Represents (sssBody read pointers lengths st i).sample_specifics es := by
        rw [sssBody_table read pointers lengths st i hi, if_neg hc]
        exact hrep
      have := ih _ _ (fun j hj => h j (List.mem_cons_of_mem _ hj)) hstep
      rw [List.filter_cons_of_neg (by simpa using hc)]
      exact this

/-- One call of `matching_statistics` adds the tally of the read's emissions. -/
theorem represents_matching_statistics (query : List Char → List Nat) (T read : List Char)
    (table : ss_map_type) (es : List ss_type) (h : Represents table es) :
    Represents (matching_statistics query T read table).sample_specifics
      (es ++ (matching_statistics query T read []).specific_string_per_read) := by
  unfold matching_statistics
  simp only [sssLoop_records]
  unfold sssLoop
  exact represents_sss_foldl read _ _ _ _ es
    (fun i hi => by rw [List.mem_range'_1] at hi; exact hi.1) h

theorem represents_reads_foldl (query : List Char → List Nat) (T : List Char) :
    ∀ (reads : List (List Char)) (table : ss_map_type) (es : List ss_type),
      Represents table es →
      Represents
        (reads.foldl (fun table read => (matching_statistics query T read table).sample_specifics)
          table)
        (es ++ emissions query T reads) := by
  intro reads
  induction reads with
  | nil => intro table es h; simpa [emissions] using h
  | cons r rs ih =>
    intro table es h
    rw [List.foldl_cons]
    have := ih _ _ (represents_matching_statistics query T r table es h)
    simpa only [emissions, List.flatMap_cons, List.append_assoc] using this

theorem represents_st_ms (query : List Char → List Nat) (T : List Char)
    (reads : List (List Char)) :
    Represents (st_ms query T reads) (emissions query T reads) := by
  have := represents_reads_foldl query T reads [] [] represents_nil
  simpa [st_ms] using this

theorem represents_mt_ms_worker (query : List Char → List Nat) (T : List Char)
    (reads : List (List Char)) :
    Represents (mt_ms_worker query T reads) (emissions query T reads) := by
  have := represents_reads_foldl query T reads [] [] represents_nil
  simpa [mt_ms_worker] using this

theorem ssLookup_mergeEntry (G : ss_map_type) (e : List Char × (Nat × Finset Nat))
    (s : List Char) :
    ssLookup (mergeEntry G e) s =
      if e.1 = s then vadd (ssLookup G e.1) e.2 else ssLookup G s := by
  unfold mergeEntry
  rw [ssLookup_ssModify, ssLookup_ssModify, ssLookup_ssModify, if_pos rfl]
  by_cases hs : e.1 = s
  · rw [if_pos hs, if_pos hs]; rfl
  · rw [if_neg hs, if_neg hs, if_neg hs]

theorem mem_keys_mergeEntry (G : ss_map_type) (e : List Char × (Nat × Finset Nat))
    (s : List Char) :
    s ∈ (mergeEntry G e).map Prod.fst ↔ s ∈ G.map Prod.fst ∨ s = e.1 := by
  unfold mergeEntry
  rw [mem_keys_ssModify, mem_keys_ssModify]
  tauto

theorem merge_foldl :
    ∀ (S G : ss_map_type), (S.map Prod.fst).Nodup → (G.map Prod.fst).Nodup →
      ((S.foldl mergeEntry G).map Prod.fst).Nodup ∧
        ∀ s, ssLookup (S.foldl mergeEntry G) s = vadd (ssLookup G s) (ssLookup S s) ∧
          (s ∈ (S.foldl mergeEntry G).map Prod.fst ↔
            s ∈ G.map Prod.fst ∨ s ∈ S.map Prod.fst) := by
  intro S
  induction S with
  | nil =>
    intro G _ hG
    refine ⟨hG, fun s => ⟨?_, by simp⟩⟩
    simp [ssLookup, vadd_zero]
  | cons e rest ih =>
    intro G hS hG
    obtain ⟨k, v⟩ := e
    simp only [List.map_cons, List.nodup_cons] at hS
    have hG' : ((mergeEntry G (k, v)).map Prod.fst).Nodup :=
      nodup_keys_ssModify _ _ _ (nodup_keys_ssModify _ _ _ hG)
    obtain ⟨hnd, hrest⟩ := ih (mergeEntry G (k, v)) hS.2 hG'
    rw [List.foldl_cons]
    refine ⟨hnd, fun s => ⟨?_, ?_⟩⟩
    · rw [(hrest s).1, ssLookup_mergeEntry]
      by_cases hs : k = s
      · subst hs
        simp only [if_true, ssLookup]
        rw [ssLookup_of_not_mem rest k hS.1, vadd_zero]
      · simp only [if_neg hs, ssLookup]
    · rw [(hrest s).2, mem_keys_mergeEntry]
      simp only [List.map_cons, List.mem_cons]
      tauto

theorem represents_merge (G S : ss_map_type) (es₁ es₂ : List ss_type)
    (hG : Represents G es₁) (hS : Represents S es₂) :
    Represents (S.foldl mergeEntry G) (es₁ ++ es₂) := by
  obtain ⟨hnd, hm⟩ := merge_foldl S G hS.1 hG.1
  refine ⟨hnd, fun s => ⟨?_, ?_⟩⟩
  · rw [(hm s).1, (hG.2 s).1, (hS.2 s).1, tally_append]
  · rw [(hm s).2, (hG.2 s).2, (hS.2 s).2]
    constructor
    · rintro (⟨e, he, hs⟩ | ⟨e, he, hs⟩)
      · exact ⟨e, List.mem_append_left _ he, hs⟩
      · exact ⟨e, List.mem_append_right _ he, hs⟩
    · rintro ⟨e, he, hs⟩
      rcases List.mem_append.1 he with he | he
      · exact Or.inl ⟨e, he, hs⟩
      · exact Or.inr ⟨e, he, hs⟩

theorem emissions_append (query : List Char → List Nat) (T : List Char)
    (r₁ r₂ : List (List Char)) :
    emissions query T (r₁ ++ r₂) = emissions query T r₁ ++ emissions query T r₂ := by
  simp [emissions, List.flatMap_append]

theorem represents_shards_foldl (query : List Char → List Nat) (T : List Char) :
    ∀ (shards : List (List (List Char))) (G : ss_map_type) (es : List ss_type),
      Represents G es →
      Represents
        ((shards.map (mt_ms_worker query T)).foldl (fun G shard => shard.foldl mergeEntry G) G)
        (es ++ emissions query T shards.flatten) := by
  intro shards
  induction shards with
  | nil => intro G es h; simpa [emissions] using h
  | cons sh rest ih =>
    intro G es h
    rw [List.map_cons, List.foldl_cons, List.flatten_cons, emissions_append, ← List.append_assoc]
    exact ih _ _ (represents_merge G _ es _ h (represents_mt_ms_worker query T sh))

theorem represents_mt_ms (query : List Char → List Nat) (T : List Char)
    (shards : List (List (List Char))) :
    Represents (mt_ms query T shards) (emissions query T shards.flatten) := by
  have := represents_shards_foldl query T shards [] [] represents_nil
  simpa [mt_ms] using this

/-- C8: for every partition of the reads into consecutive shards, the table merged by
`mt_ms` from the private shard tables agrees with the table `st_ms` builds in a single
pass: same keys, and under every string `s` the number of emissions of `s` over all
reads and the set of their `ref_pos` values. -/
theorem merged_table_eq_single_pass (query : List Char → List Nat) (T : List Char)
    (shards : List (List (List Char))) (s : List Char) :
    ssLookup (mt_ms query T shards) s = ssLookup (st_ms query T shards.flatten) s ∧
      ssLookup (st_ms query T shards.flatten) s =
        tally (emissions query T shards.flatten) s ∧
      (s ∈ (mt_ms query T shards).map Prod.fst ↔
        s ∈ (st_ms query T shards.flatten).map Prod.fst) ∧
      ((mt_ms query T shards).map Prod.fst).Nodup ∧
      ((st_ms query T shards.flatten).map Prod.fst).Nodup := by
  have hm := represents_mt_ms query T shards
  have hs := represents_st_ms query T shards.flatten
  refine ⟨?_, (hs.2 s).1, ?_, hm.1, hs.1⟩
  · rw [(hm.2 s).1, (hs.2 s).1]
  · rw [(hm.2 s).2, (hs.2 s).2]

/-- Witness of C8: on the text `TTTTAGCG` the read `ACG` emits `ACG` once, at reference
position 4; two such reads in two shards give `G["ACG"] = (2, {4})`. -/
theorem merged_table_eq_single_pass_witness :
    emissions (fun _ => [4, 6, 7]) "TTTTAGCG".toList ["ACG".toList] =
        [{ seq := "ACG".toList, l := 3, ref_pos := 4, read_pos := 0 }] ∧
      ssLookup (mt_ms (fun _ => [4, 6, 7]) "TTTTAGCG".toList [["ACG".toList], ["ACG".toList]])
        "ACG".toList = (2, {4}) ∧
      ssLookup (mt_ms (fun _ => [4, 6, 7]) "TTTTAGCG".toList [["ACG".toList], ["ACG".toList]])
          "ACG".toList =
        ssLookup (st_ms (fun _ => [4, 6, 7]) "TTTTAGCG".toList
          [["ACG".toList], ["ACG".toList]].flatten) "ACG".toList :=
  ⟨by decide, by decide,
    (merged_table_eq_single_pass (fun _ => [4, 6, 7]) "TTTTAGCG".toList
      [["ACG".toList], ["ACG".toList]] "ACG".toList).1⟩

/-! ## Round trip of the `.ms.tmp` format -/

theorem msRecord_eq (P L : List Nat) (h : P.length = L.length) :
    msRecord P L = P.length :: (P ++ L) := by
  unfold msRecord
  rw [List.take_length, h, List.take_length]

theorem dispatcherLoop_msStream :
    ∀ (recs : List (List Nat × List Nat)) (fuel n_seq : Nat) (acc : List MsBlock),
      (∀ r ∈ recs, r.1.length = r.2.length) → (msStream recs).length ≤ fuel →
      dispatcherLoop fuel (msStream recs) n_seq acc =
        some (acc ++ ((List.range' n_seq recs.length).zip recs).map
          (fun p => (p.1, p.2.1, p.2.2)), n_seq + recs.length) := by
  intro recs
  induction recs with
  | nil =>
    intro fuel n_seq acc _ _
    cases fuel <;> simp [msStream, dispatcherLoop]
  | cons r rs ih =>
    intro fuel n_seq acc h hfuel
    obtain ⟨P, L⟩ := r
    have hPL : P.length = L.length := h (P, L) (List.mem_cons_self _ _)
    have hstream : msStream ((P, L) :: rs) = P.length :: (P ++ (L ++ msStream rs)) := by
      simp [msStream, msRecord_eq P L hPL]
    rw [hstream] at hfuel ⊢
    obtain ⟨f, rfl⟩ : ∃ f, fuel = f + 1 := ⟨fuel - 1, by simp at hfuel; omega⟩
    have h1 : (P ++ (L ++ msStream rs)).take P.length = P := List.take_left' rfl
    have h2 : (P ++ (L ++ msStream rs)).drop P.length = L ++ msStream rs :=
      List.drop_left' rfl
    have h3 : (L ++ msStream rs).take P.length = L := List.take_left' hPL.symm
    have h4 : (L ++ msStream rs).drop P.length = msStream rs := List.drop_left' hPL.symm
    have c1 : ¬ ((P ++ (L ++ msStream rs)).take P.length).length ≠ P.length := by
      rw [h1]; simp
    have c2 : ¬ (((P ++ (L ++ msStream rs)).drop P.length).take P.length).length ≠
        P.length := by
      rw [h2, h3]; simp [hPL]
    simp only [dispatcherLoop]
    rw [if_neg c1, if_neg c2, h1, h2, h3, h4]
    rw [ih f (n_seq + 1) _ (fun r hr => h r (List.mem_cons_of_mem _ hr))
      (by simp at hfuel; omega)]
    simp only [List.length_cons, List.range'_succ, List.zip_cons_cons, List.map_cons,
      List.append_assoc, List.singleton_append]
    congr 2
    omega

/-- More iterations than the stream has words do not change the result of the loop. -/
theorem dispatcherLoop_fuel :
    ∀ (fuel : Nat) (stream : List Nat) (n_seq : Nat) (acc : List MsBlock),
      stream.length ≤ fuel →
      dispatcherLoop fuel stream n_seq acc = dispatcherLoop stream.length stream n_seq acc := by
  intro fuel
  induction fuel using Nat.strong_induction_on with
  | _ fuel ih =>
    intro stream n_seq acc h
    cases stream with
    | nil => cases fuel <;> rfl
    | cons w rest =>
      obtain ⟨f, rfl⟩ : ∃ f, fuel = f + 1 := ⟨fuel - 1, by simp at h; omega⟩
      simp only [List.length_cons, dispatcherLoop]
      split
      · rfl
      · split
        · rfl
        · have hlen : ((rest.drop w).drop w).length ≤ rest.length := by
            simp only [List.length_drop]; omega
          rw [ih f (Nat.lt_succ_self f) _ _ _ (by simp at h; omega)]
          by_cases hf : rest.length < f + 1
          · rw [ih rest.length hf _ _ _ hlen]
          · have : f = rest.length := by simp at h; omega
            subst this
            rw [ih rest.length (Nat.lt_succ_self _) _ _ _ hlen]

/-- C9: for every list of per-read pairs `(P, L)` with `|P| = |L|` (empty reads
included), decoding the concatenation of the records written by `matching_statistics`
with the record loop of `dispatcher` succeeds and yields the same pairs in the same
order, headed by the counter values `0, 1, 2, ...`; the counter ends at the number of
records. -/
theorem ms_tmp_round_trip (recs : List (List Nat × List Nat))
    (h : ∀ r ∈ recs, r.1.length = r.2.length) :
    dispatcherDecode (msStream recs) =
      some (((List.range recs.length).zip recs).map (fun p => (p.1, p.2.1, p.2.2)),
        recs.length) := by
  unfold dispatcherDecode
  rw [dispatcherLoop_msStream recs _ 0 [] h (Nat.le_refl _)]
  simp [List.range_eq_range']

/-- Witness of C9: a read of length 2, an empty read and a read of length 1. -/
theorem ms_tmp_round_trip_witness :
    msStream [([7, 8], [2, 1]), ([], []), ([5], [0])] = [2, 7, 8, 2, 1, 0, 1, 5, 0] ∧
      dispatcherDecode (msStream [([7, 8], [2, 1]), ([], []), ([5], [0])]) =
        some (((List.range [([7, 8], [2, 1]), (([], []) : List Nat × List Nat),
            ([5], [0])].length).zip
          [([7, 8], [2, 1]), ([], []), ([5], [0])]).map (fun p => (p.1, p.2.1, p.2.2)),
          [([7, 8], [2, 1]), (([], []) : List Nat × List Nat), ([5], [0])].length) :=
  ⟨by decide, ms_tmp_round_trip [([7, 8], [2, 1]), ([], []), ([5], [0])] (by decide)⟩

/-! ## The FASTQ splitter -/

theorem skipLineAux_body :
    ∀ (b R : List Char) (p : Nat), '\n' ∉ b →
      skipLineAux (b ++ '\n' :: R) p = some (p + b.length + 1) := by
  intro b
  induction b with
  | nil => intro R p _; simp [skipLineAux]
  | cons c cs ih =>
    intro R p h
    simp only [List.mem_cons, not_or] at h
    simp only [List.cons_append, skipLineAux, if_neg (Ne.symm h.1), List.length_cons]
    change skipLineAux (cs ++ '\n' :: R) (p + 1) = _
    rw [ih R (p + 1) h.2]
    congr 1
    omega

theorem nextLineStart_mid (A b R : List Char) (j : Nat) (hj : j ≤ b.length)
    (hb : '\n' ∉ b.drop j) :
    nextLineStart (A ++ (b ++ '\n' :: R)) (A.length + j) =
      R.head?.map (fun c => (c, A.length + b.length + 1)) := by
  have hdrop : (A ++ (b ++ '\n' :: R)).drop (A.length + j) = b.drop j ++ '\n' :: R := by
    rw [List.drop_append, List.drop_append_of_le_length hj]
  have hskip : skipLine (A ++ (b ++ '\n' :: R)) (A.length + j) =
      some (A.length + b.length + 1) := by
    unfold skipLine
    rw [hdrop, skipLineAux_body _ _ _ hb, List.length_drop]
    congr 1
    omega
  have hget : (A ++ (b ++ '\n' :: R))[A.length + b.length + 1]? = R.head? := by
    rw [List.getElem?_append_right (by omega)]
    have h1 : A.length + b.length + 1 - A.length = b.length + 1 := by omega
    rw [h1, List.getElem?_append_right (by omega)]
    have h2 : b.length + 1 - b.length = 1 := by omega
    rw [h2]
    cases R <;> simp
  unfold nextLineStart
  rw [hskip]
  simp only [hget]
  cases R <;> simp

theorem collectWindow_lines :
    ∀ (k : Nat) (ls : List (List Char)) (A b : List Char) (j : Nat) (w : List (Char × Nat)),
      j ≤ b.length → '\n' ∉ b.drop j →
      (∀ x ∈ ls, ∃ c bx, x = c :: bx ++ ['\n'] ∧ '\n' ∉ bx) →
      (k ≤ ls.length →
        ∃ cur, collectWindow (A ++ (b ++ '\n' :: ls.flatten)) k (A.length + j) w =
          some (w ++ firstChars (ls.take k) (A.length + b.length + 1), cur)) ∧
      (ls.length < k →
        collectWindow (A ++ (b ++ '\n' :: ls.flatten)) k (A.length + j) w = none) := by
  intro k
  induction k with
  | zero =>
    intro ls A b j w _ _ _
    refine ⟨fun _ => ⟨A.length + j, ?_⟩, fun h => by omega⟩
    simp [collectWindow, firstChars]
  | succ k ih =>
    intro ls A b j w hj hb hls
    cases ls with
    | nil =>
      refine ⟨fun h => by simp at h, fun _ => ?_⟩
      simp only [collectWindow, List.flatten_nil]
      rw [nextLineStart_mid A b [] j hj hb]
      rfl
    | cons x ls' =>
      obtain ⟨c, bx, rfl, hbx⟩ := hls x (List.mem_cons_self _ _)
      have hls' : ∀ y ∈ ls', ∃ c bx, y = c :: bx ++ ['\n'] ∧ '\n' ∉ bx :=
        fun y hy => hls y (List.mem_cons_of_mem _ hy)
      have hfile : A ++ (b ++ '\n' :: (((c :: bx ++ ['\n']) :: ls').flatten)) =
          (A ++ (b ++ ['\n'])) ++ ((c :: bx) ++ '\n' :: ls'.flatten) := by
        simp [List.append_assoc]
      have hstep : nextLineStart (A ++ (b ++ '\n' :: (((c :: bx ++ ['\n']) :: ls').flatten)))
          (A.length + j) = some (c, A.length + b.length + 1) := by
        rw [nextLineStart_mid A b _ j hj hb]
        simp
      have hpos : A.length + b.length + 1 + 1 = (A ++ (b ++ ['\n'])).length + 1 := by
        simp only [List.length_append, List.length_singleton]; omega
      obtain ⟨ih1, ih2⟩ := ih ls' (A ++ (b ++ ['\n'])) (c :: bx) 1
        (w ++ [(c, A.length + b.length + 1)]) (by simp) (by simpa using hbx) hls'
      have hoff : (A ++ (b ++ ['\n'])).length + (c :: bx).length + 1 =
          A.length + b.length + 1 + (c :: bx ++ ['\n']).length := by
        simp only [List.length_append, List.length_singleton, List.length_cons]; omega
      constructor
      · intro hk
        obtain ⟨cur, hcur⟩ := ih1 (by simpa using hk)
        refine ⟨cur, ?_⟩
        simp only [collectWindow, hstep]
        rw [hpos, hfile, hcur, hoff]
        simp [firstChars, List.append_assoc]
      · intro hk
        simp only [collectWindow, hstep]
        rw [hpos, hfile]
        exact ih2 (by simpa using hk)

theorem scanFrom_lines (A b : List Char) (ls : List (List Char)) (j : Nat)
    (hj : j ≤ b.length) (hb : '\n' ∉ b.drop j)
    (hls : ∀ x ∈ ls, ∃ c bx, x = c :: bx ++ ['\n'] ∧ '\n' ∉ bx) :
    (4 ≤ ls.length →
      ∃ cur, scanFrom (A ++ (b ++ '\n' :: ls.flatten)) (A.length + j) =
        pickStart (firstChars (ls.take 4) (A.length + b.length + 1)) cur) ∧
    (ls.length < 4 →
      scanFrom (A ++ (b ++ '\n' :: ls.flatten)) (A.length + j) =
        (A ++ (b ++ '\n' :: ls.flatten)).length) := by
  obtain ⟨h1, h2⟩ := collectWindow_lines 4 ls A b j [] hj hb hls
  constructor
  · intro h
    obtain ⟨cur, hcur⟩ := h1 h
    exact ⟨cur, by unfold scanFrom; rw [hcur]; rfl⟩
  · intro h
    unfold scanFrom
    rw [h2 h]

theorem fastqBytes_cons (r : FastqRecord) (rs : List FastqRecord) :
    fastqBytes (r :: rs) = r.bytes ++ fastqBytes rs := by
  simp [fastqBytes]

theorem fastqBytes_eq_lines (rs : List FastqRecord) :
    fastqBytes rs = (rs.flatMap FastqRecord.lines).flatten := by
  induction rs with
  | nil => rfl
  | cons r rs ih =>
    rw [fastqBytes_cons, ih, List.flatMap_cons, List.flatten_append]
    rfl

theorem wellFormed_lines (r : FastqRecord) (hr : r.WellFormed) :
    ∃ (s0 q0 : Char) (ss qs : List Char),
      r.lines = [('@' :: r.name) ++ ['\n'], (s0 :: ss) ++ ['\n'], ('+' :: r.plus) ++ ['\n'],
        (q0 :: qs) ++ ['\n']] ∧
      '\n' ∉ r.name ∧ '\n' ∉ s0 :: ss ∧ '\n' ∉ r.plus ∧ '\n' ∉ q0 :: qs ∧
      s0 ≠ '@' ∧ s0 ≠ '+' := by
  obtain ⟨hn, hs, hp, hq, hs0, hsa, hsp, hq0⟩ := hr
  obtain ⟨name, seq, plus, qual⟩ := r
  cases seq with
  | nil => exact absurd rfl hs0
  | cons s0 ss =>
    cases qual with
    | nil => exact absurd rfl hq0
    | cons q0 qs =>
      refine ⟨s0, q0, ss, qs, rfl, hn, hs, hp, hq, ?_, ?_⟩
      · intro h; apply hsa; simp [h]
      · intro h; apply hsp; simp [h]

theorem lines_ok (rs : List FastqRecord) (hrs : ∀ r ∈ rs, r.WellFormed) :
    ∀ x ∈ rs.flatMap FastqRecord.lines, ∃ c bx, x = c :: bx ++ ['\n'] ∧ '\n' ∉ bx := by
  intro x hx
  rw [List.mem_flatMap] at hx
  obtain ⟨r, hr, hxr⟩ := hx
  obtain ⟨s0, q0, ss, qs, hl, hn, hs, hp, hq, _, _⟩ := wellFormed_lines r (hrs r hr)
  rw [hl] at hxr
  simp only [List.mem_cons, List.mem_singleton, List.not_mem_nil, or_false] at hxr
  simp only [List.mem_cons, not_or] at hs hq
  rcases hxr with rfl | rfl | rfl | rfl
  · exact ⟨'@', r.name, rfl, hn⟩
  · exact ⟨s0, ss, rfl, hs.2⟩
  · exact ⟨'+', r.plus, rfl, hp⟩
  · exact ⟨q0, qs, rfl, hq.2⟩

/-- A scan started inside a record returns the offset right after that record: the
start of the next record, or the file size when the record is the last one. -/
theorem scanFrom_in_record (A : List Char) (r : FastqRecord) (rs : List FastqRecord)
    (hr : r.WellFormed) (hrs : ∀ x ∈ rs, x.WellFormed) (q : Nat) (hq : q < r.bytes.length) :
    scanFrom (A ++ fastqBytes (r :: rs)) (A.length + q) = A.length + r.bytes.length := by
  obtain ⟨s0, q0, ss, qs, hl, hn, hs, hp, hqq, hsa, hsp⟩ := wellFormed_lines r hr
  have hok := lines_ok rs hrs
  have hbytes : r.bytes = ('@' :: r.name) ++ '\n' :: ((s0 :: ss) ++ '\n' ::
      (('+' :: r.plus) ++ '\n' :: ((q0 :: qs) ++ ['\n']))) := by
    unfold FastqRecord.bytes; rw [hl]; simp
  have hlen : r.bytes.length =
      (r.name.length + 2) + (ss.length + 2) + (r.plus.length + 2) + (qs.length + 2) := by
    rw [hbytes]; simp; omega
  have htail : rs.flatMap FastqRecord.lines = [] ∨
      ∃ (n' p' : List Char) (s0' q0' : Char) (ss' qs' : List Char) (tl : List (List Char)),
        rs.flatMap FastqRecord.lines =
          [('@' :: n') ++ ['\n'], (s0' :: ss') ++ ['\n'], ('+' :: p') ++ ['\n'],
            (q0' :: qs') ++ ['\n']] ++ tl ∧ s0' ≠ '@' ∧ s0' ≠ '+' := by
    cases rs with
    | nil => exact Or.inl rfl
    | cons r' rs' =>
      obtain ⟨s0', q0', ss', qs', hl', _, _, _, _, hsa', hsp'⟩ :=
        wellFormed_lines r' (hrs r' (List.mem_cons_self _ _))
      exact Or.inr ⟨r'.name, r'.plus, s0', q0', ss', qs', rs'.flatMap FastqRecord.lines,
        by rw [List.flatMap_cons, hl'], hsa', hsp'⟩
  rw [hlen] at hq ⊢
  rw [fastqBytes_cons, fastqBytes_eq_lines, hbytes]
  generalize rs.flatMap FastqRecord.lines = tail at hok htail
  simp only [List.mem_cons, not_or] at hs hqq
  by_cases h0 : q < r.name.length + 2
  · -- inside the header line
    have hls : ∀ x ∈ [(s0 :: ss) ++ ['\n'], ('+' :: r.plus) ++ ['\n'], (q0 :: qs) ++ ['\n']] ++ tail,
        ∃ c bx, x = c :: bx ++ ['\n'] ∧ '\n' ∉ bx := by
      intro x hx
      simp only [List.mem_append, List.mem_cons, List.mem_singleton, List.not_mem_nil,
        or_false] at hx
      rcases hx with (rfl | rfl | rfl) | hx
      · exact ⟨s0, ss, rfl, hs.2⟩
      · exact ⟨'+', r.plus, rfl, hp⟩
      · exact ⟨q0, qs, rfl, hqq.2⟩
      · exact hok x hx
    obtain ⟨h4, hlt⟩ := scanFrom_lines A ('@' :: r.name) _ q (by simp; omega)
      (fun hmem => by
        have := List.mem_of_mem_drop hmem
        simp at this
        exact hn this) hls
    have hfile : A ++ (('@' :: r.name) ++ '\n' :: ((s0 :: ss) ++ '\n' ::
        (('+' :: r.plus) ++ '\n' :: ((q0 :: qs) ++ ['\n']))) ++ tail.flatten) =
        A ++ (('@' :: r.name) ++ '\n' :: ([(s0 :: ss) ++ ['\n'], ('+' :: r.plus) ++ ['\n'],
          (q0 :: qs) ++ ['\n']] ++ tail).flatten) := by
      simp [List.append_assoc]
    rw [hfile]
    rcases htail with rfl | ⟨n', p', s0', q0', ss', qs', tl, rfl, hsa', hsp'⟩
    · rw [hlt (by simp)]
      simp
      omega
    · obtain ⟨cur, hcur⟩ := h4 (by simp)
      rw [hcur]
      simp [pickStart, firstChars, hsa, hsp]
      omega
  · by_cases h1 : q < r.name.length + 2 + (ss.length + 2)
    · -- inside the sequence line
      have hls : ∀ x ∈ [('+' :: r.plus) ++ ['\n'], (q0 :: qs) ++ ['\n']] ++ tail,
          ∃ c bx, x = c :: bx ++ ['\n'] ∧ '\n' ∉ bx := by
        intro x hx
        simp only [List.mem_append, List.mem_cons, List.mem_singleton, List.not_mem_nil,
          or_false] at hx
        rcases hx with (rfl | rfl) | hx
        · exact ⟨'+', r.plus, rfl, hp⟩
        · exact ⟨q0, qs, rfl, hqq.2⟩
        · exact hok x hx
      obtain ⟨h4, hlt⟩ := scanFrom_lines (A ++ (('@' :: r.name) ++ ['\n'])) (s0 :: ss) _
        (q - (r.name.length + 2)) (by simp; omega)
        (fun hmem => by
          have := List.mem_of_mem_drop hmem
          simp only [List.mem_cons, not_or] at this
          rcases this with h | h
          · exact hs.1 h
          · exact hs.2 h) hls
      have hfile : A ++ (('@' :: r.name) ++ '\n' :: ((s0 :: ss) ++ '\n' ::
          (('+' :: r.plus) ++ '\n' :: ((q0 :: qs) ++ ['\n']))) ++ tail.flatten) =
          (A ++ (('@' :: r.name) ++ ['\n'])) ++ ((s0 :: ss) ++ '\n' ::
            ([('+' :: r.plus) ++ ['\n'], (q0 :: qs) ++ ['\n']] ++ tail).flatten) := by
        simp [List.append_assoc]
      have hpos : A.length + q =
          (A ++ (('@' :: r.name) ++ ['\n'])).length + (q - (r.name.length + 2)) := by
        simp only [List.length_append, List.length_cons, List.length_singleton,
          List.length_nil]
        omega
      rw [hfile, hpos]
      rcases htail with rfl | ⟨n', p', s0', q0', ss', qs', tl, rfl, hsa', hsp'⟩
      · rw [hlt (by simp)]
        simp
        omega
      · obtain ⟨cur, hcur⟩ := h4 (by simp)
        rw [hcur]
        simp [pickStart, firstChars]
        omega
    · by_cases h2 : q < r.name.length + 2 + (ss.length + 2) + (r.plus.length + 2)
      · -- inside the separator line
        have hls : ∀ x ∈ [(q0 :: qs) ++ ['\n']] ++ tail,
            ∃ c bx, x = c :: bx ++ ['\n'] ∧ '\n' ∉ bx := by
          intro x hx
          simp only [List.mem_append, List.mem_cons, List.mem_singleton, List.not_mem_nil,
            or_false] at hx
          rcases hx with rfl | hx
          · exact ⟨q0, qs, rfl, hqq.2⟩
          · exact hok x hx
        obtain ⟨h4, hlt⟩ := scanFrom_lines
          (A ++ (('@' :: r.name) ++ ['\n'] ++ ((s0 :: ss) ++ ['\n']))) ('+' :: r.plus) _
          (q - (r.name.length + 2 + (ss.length + 2))) (by simp; omega)
          (fun hmem => by
            have := List.mem_of_mem_drop hmem
            simp at this
            exact hp this) hls
        have hfile : A ++ (('@' :: r.name) ++ '\n' :: ((s0 :: ss) ++ '\n' ::
            (('+' :: r.plus) ++ '\n' :: ((q0 :: qs) ++ ['\n']))) ++ tail.flatten) =
            (A ++ (('@' :: r.name) ++ ['\n'] ++ ((s0 :: ss) ++ ['\n']))) ++
              (('+' :: r.plus) ++ '\n' :: ([(q0 :: qs) ++ ['\n']] ++ tail).flatten) := by
          simp [List.append_assoc]
        have hpos : A.length + q =
            (A ++ (('@' :: r.name) ++ ['\n'] ++ ((s0 :: ss) ++ ['\n']))).length +
              (q - (r.name.length + 2 + (ss.length + 2))) := by
          simp only [List.length_append, List.length_cons, List.length_singleton,
            List.length_nil]
          omega
        rw [hfile, hpos]
        rcases htail with rfl | ⟨n', p', s0', q0', ss', qs', tl, rfl, hsa', hsp'⟩
        · rw [hlt (by simp)]
          simp
          omega
        · obtain ⟨cur, hcur⟩ := h4 (by simp)
          rw [hcur]
          simp [pickStart, firstChars, hsa', hsp']
          omega
      · -- inside the quality line
        obtain ⟨h4, hlt⟩ := scanFrom_lines
          (A ++ (('@' :: r.name) ++ ['\n'] ++ ((s0 :: ss) ++ ['\n']) ++
            (('+' :: r.plus) ++ ['\n']))) (q0 :: qs) tail
          (q - (r.name.length + 2 + (ss.length + 2) + (r.plus.length + 2))) (by simp; omega)
          (fun hmem => by
            have := List.mem_of_mem_drop hmem
            simp only [List.mem_cons, not_or] at this
            rcases this with h | h
            · exact hqq.1 h
            · exact hqq.2 h) hok
        have hfile : A ++ (('@' :: r.name) ++ '\n' :: ((s0 :: ss) ++ '\n' ::
            (('+' :: r.plus) ++ '\n' :: ((q0 :: qs) ++ ['\n']))) ++ tail.flatten) =
            (A ++ (('@' :: r.name) ++ ['\n'] ++ ((s0 :: ss) ++ ['\n']) ++
              (('+' :: r.plus) ++ ['\n']))) ++ ((q0 :: qs) ++ '\n' :: tail.flatten) := by
          simp [List.append_assoc]
        have hpos : A.length + q =
            (A ++ (('@' :: r.name) ++ ['\n'] ++ ((s0 :: ss) ++ ['\n']) ++
              (('+' :: r.plus) ++ ['\n']))).length +
              (q - (r.name.length + 2 + (ss.length + 2) + (r.plus.length + 2))) := by
          simp only [List.length_append, List.length_cons, List.length_singleton,
            List.length_nil]
          omega
        rw [hfile, hpos]
        rcases htail with rfl | ⟨n', p', s0', q0', ss', qs', tl, rfl, hsa', hsp'⟩
        · rw [hlt (by simp)]
          simp
          omega
        · obtain ⟨cur, hcur⟩ := h4 (by simp)
          rw [hcur]
          simp [pickStart, firstChars]
          omega

theorem fastqBytes_length_cons (r : FastqRecord) (rs : List FastqRecord) :
    (fastqBytes (r :: rs)).length = r.bytes.length + (fastqBytes rs).length := by
  rw [fastqBytes_cons, List.length_append]

/-- On a well-formed file, a scan started at offset `q` inside the file returns the
smallest record start above `q`, or the file size when there is none. -/
theorem scanFrom_fastq :
    ∀ (rs : List FastqRecord) (A : List Char) (q : Nat), (∀ r ∈ rs, r.WellFormed) →
      q < (fastqBytes rs).length →
      scanFrom (A ++ fastqBytes rs) (A.length + q) = A.length + nextRecordAfter rs q := by
  intro rs
  induction rs with
  | nil => intro A q _ hq; simp [fastqBytes] at hq
  | cons r rs ih =>
    intro A q hwf hq
    have hr := hwf r (List.mem_cons_self _ _)
    have hrs : ∀ x ∈ rs, x.WellFormed := fun x hx => hwf x (List.mem_cons_of_mem _ hx)
    by_cases h : q < r.bytes.length
    · rw [scanFrom_in_record A r rs hr hrs q h]
      simp only [nextRecordAfter, if_pos h]
    · rw [fastqBytes_length_cons] at hq
      have hfile : A ++ fastqBytes (r :: rs) = (A ++ r.bytes) ++ fastqBytes rs := by
        rw [fastqBytes_cons, List.append_assoc]
      have hpos : A.length + q = (A ++ r.bytes).length + (q - r.bytes.length) := by
        rw [List.length_append]; omega
      rw [hfile, hpos, ih (A ++ r.bytes) (q - r.bytes.length) hrs (by omega)]
      simp only [nextRecordAfter, if_neg h, List.length_append]
      omega

theorem nextRecordAfter_mono :
    ∀ (rs : List FastqRecord) (q q' : Nat), q ≤ q' →
      nextRecordAfter rs q ≤ nextRecordAfter rs q' := by
  intro rs
  induction rs with
  | nil => intro q q' _; simp [nextRecordAfter]
  | cons r rs ih =>
    intro q q' h
    simp only [nextRecordAfter]
    by_cases h1 : q < r.bytes.length
    · rw [if_pos h1]
      split <;> omega
    · rw [if_neg h1, if_neg (by omega)]
      have := ih (q - r.bytes.length) (q' - r.bytes.length) (by omega)
      omega

theorem nextRecordAfter_bounds :
    ∀ (rs : List FastqRecord) (q : Nat), q < (fastqBytes rs).length →
      q < nextRecordAfter rs q ∧ nextRecordAfter rs q ≤ (fastqBytes rs).length := by
  intro rs
  induction rs with
  | nil => intro q hq; simp [fastqBytes] at hq
  | cons r rs ih =>
    intro q hq
    rw [fastqBytes_length_cons] at hq ⊢
    simp only [nextRecordAfter]
    by_cases h1 : q < r.bytes.length
    · rw [if_pos h1]; omega
    · rw [if_neg h1]
      have := ih (q - r.bytes.length) (by omega)
      omega

theorem fastqBytes_head (rs : List FastqRecord) (h : 0 < (fastqBytes rs).length) :
    (fastqBytes rs)[0]? = some '@' := by
  cases rs with
  | nil => simp [fastqBytes] at h
  | cons r rs =>
    rw [fastqBytes_cons]
    simp [FastqRecord.bytes, FastqRecord.lines]

/-- The result of `next_start_fastq` on a well-formed file, for a cursor inside the
file: `0` at the start, otherwise the smallest record start at or after the cursor, or
the file size when there is none. -/
theorem next_start_fastq_eq (rs : List FastqRecord) (hwf : ∀ r ∈ rs, r.WellFormed)
    (p : Nat) (hp : p ≤ (fastqBytes rs).length) :
    next_start_fastq (fastqBytes rs) p =
      if p = 0 then 0 else nextRecordAfter rs (p - 1) := by
  unfold next_start_fastq
  by_cases h0 : p = 0
  · subst h0
    by_cases hlen : 0 < (fastqBytes rs).length
    · simp [fastqBytes_head rs hlen]
    · have hnil : fastqBytes rs = [] := List.length_eq_zero.1 (by omega)
      rw [hnil]
      rfl
  · rw [if_neg (fun h => h0 h.1), if_neg h0]
    have := scanFrom_fastq rs [] (p - 1) hwf (by omega)
    simpa using this

theorem next_start_fastq_mono (rs : List FastqRecord) (hwf : ∀ r ∈ rs, r.WellFormed)
    (p p' : Nat) (hpp : p ≤ p') (hp : p' ≤ (fastqBytes rs).length) :
    next_start_fastq (fastqBytes rs) p ≤ next_start_fastq (fastqBytes rs) p' := by
  rw [next_start_fastq_eq rs hwf p (by omega), next_start_fastq_eq rs hwf p' hp]
  by_cases h0 : p = 0
  · rw [if_pos h0]; exact Nat.zero_le _
  · rw [if_neg h0, if_neg (by omega)]
    exact nextRecordAfter_mono rs _ _ (by omega)

theorem next_start_fastq_size (rs : List FastqRecord) (hwf : ∀ r ∈ rs, r.WellFormed) :
    next_start_fastq (fastqBytes rs) (fastqBytes rs).length = (fastqBytes rs).length := by
  rw [next_start_fastq_eq rs hwf _ (Nat.le_refl _)]
  by_cases h0 : (fastqBytes rs).length = 0
  · rw [if_pos h0, h0]
  · rw [if_neg h0]
    have := nextRecordAfter_bounds rs ((fastqBytes rs).length - 1) (by omega)
    omega

/-! ## Scenario S2 -/

/-- C11 as stated fails: on the text `ACGTACGTNN` the read `ACGTA` with the correct
seeds `[0, 1, 2, 3, 4]` gets `L = [5, 4, 3, 2, 1]`, not `[5, 3, 2, 1, 1]`, and no SSS
record is emitted. -/
theorem scenario_S2_counterexample :
    IsMsSeed "ACGTACGTNN".toList "ACGTA".toList [0, 1, 2, 3, 4] ∧
      kernelLengths "ACGTACGTNN".toList "ACGTA".toList [0, 1, 2, 3, 4] = [5, 4, 3, 2, 1] ∧
      kernelLengths "ACGTACGTNN".toList "ACGTA".toList [0, 1, 2, 3, 4] ≠ [5, 3, 2, 1, 1] ∧
      (matching_statistics (fun _ => [0, 1, 2, 3, 4]) "ACGTACGTNN".toList "ACGTA".toList
        []).specific_string_per_read = [] := by
  decide

/-- C11 (amended): with `T = ACGTACGTNN` and any correct MS seed sequence for the read
`ACGTA`, `matching_statistics` yields `L = [5, 4, 3, 2, 1]` and emits no SSS record. -/
theorem scenario_S2 (query : List Char → List Nat) (table : ss_map_type)
    (hlen : (query "ACGTA".toList).length = "ACGTA".toList.length)
    (hP64 : ∀ p ∈ query "ACGTA".toList, p < sizeMod)
    (hseed : IsMsSeed "ACGTACGTNN".toList "ACGTA".toList (query "ACGTA".toList)) :
    kernelLengths "ACGTACGTNN".toList "ACGTA".toList (query "ACGTA".toList) =
        [5, 4, 3, 2, 1] ∧
      (matching_statistics query "ACGTACGTNN".toList "ACGTA".toList
        table).specific_string_per_read = [] := by
  have hms : ∀ i, i < 5 →
      (kernelLengths "ACGTACGTNN".toList "ACGTA".toList (query "ACGTA".toList)).getD i 0 =
        msLength "ACGTACGTNN".toList "ACGTA".toList i := by
    intro i hi
    rw [kernelLengths_getD _ _ _ i (by rw [hlen]; exact hi)]
    exact (kernel_seed_invariant _ _ _ (by decide) hP64 hlen hseed i hi).2
  have hL5 : (kernelLengths "ACGTACGTNN".toList "ACGTA".toList
      (query "ACGTA".toList)).length = 5 := by
    rw [kernelLengths_length, hlen]; rfl
  have hL : kernelLengths "ACGTACGTNN".toList "ACGTA".toList (query "ACGTA".toList) =
      [5, 4, 3, 2, 1] := by
    have h0 := hms 0 (by decide)
    have h1 := hms 1 (by decide)
    have h2 := hms 2 (by decide)
    have h3 := hms 3 (by decide)
    have h4 := hms 4 (by decide)
    have e0 : msLength "ACGTACGTNN".toList "ACGTA".toList 0 = 5 := by decide
    have e1 : msLength "ACGTACGTNN".toList "ACGTA".toList 1 = 4 := by decide
    have e2 : msLength "ACGTACGTNN".toList "ACGTA".toList 2 = 3 := by decide
    have e3 : msLength "ACGTACGTNN".toList "ACGTA".toList 3 = 2 := by decide
    have e4 : msLength "ACGTACGTNN".toList "ACGTA".toList 4 = 1 := by decide
    rw [e0] at h0
    rw [e1] at h1
    rw [e2] at h2
    rw [e3] at h3
    rw [e4] at h4
    generalize kernelLengths "ACGTACGTNN".toList "ACGTA".toList (query "ACGTA".toList) = L
      at hL5 h0 h1 h2 h3 h4
    match L, hL5 with
    | [a, b, c, d, e], _ =>
      simp only [List.getD_cons_zero, List.getD_cons_succ] at h0 h1 h2 h3 h4
      rw [h0, h1, h2, h3, h4]
  refine ⟨hL, ?_⟩
  unfold matching_statistics
  simp only [sssLoop_records]
  rw [hL]
  rfl

/-- Witness of the amended C11: the correct seeds `[0, 1, 2, 3, 0]`. -/
theorem scenario_S2_witness :
    kernelLengths "ACGTACGTNN".toList "ACGTA".toList
        ((fun _ => [0, 1, 2, 3, 0]) "ACGTA".toList) = [5, 4, 3, 2, 1] ∧
      (matching_statistics (fun _ => [0, 1, 2, 3, 0]) "ACGTACGTNN".toList "ACGTA".toList
        []).specific_string_per_read = [] :=
  scenario_S2 (fun _ => [0, 1, 2, 3, 0]) [] (by decide) (by decide) (by decide)

/-! ## The non-N guard -/

theorem tailRun_extendLoop (T read : List Char) (i pos : Nat) :
    ∀ fuel l c, TailRun read i l c →
      TailRun read i (extendLoop T read i pos fuel l c).1
        (extendLoop T read i pos fuel l c).2 := by
  intro fuel
  induction fuel with
  | zero => intro l c h; simpa [extendLoop] using h
  | succ fuel ih =>
    intro l c h
    simp only [extendLoop]
    split
    · apply ih
      obtain ⟨h1, h2⟩ := h
      by_cases hN : seqAt read (i + l) = 'N'
      · rw [if_pos hN]
        constructor
        · intro j hj1 hj2 hj3
          by_cases hjl : j = i + l
          · rw [hjl]; exact hN
          · exact h1 j hj1 (by omega) (by omega)
        · intro hc
          have := h2 (by omega)
          have he : i + (l + 1) - 1 - (c + 1) = i + l - 1 - c := by omega
          rw [he]
          exact this
      · rw [if_neg hN]
        constructor
        · intro j hj1 hj2 hj3
          omega
        · intro _
          have he : i + (l + 1) - 1 - 0 = i + l := by omega
          rw [he]
          exact hN
    · exact h

theorem tailRun_next (read : List Char) (i l c : Nat) (h : TailRun read i l c) :
    TailRun read (i + 1) (l - 1) c := by
  obtain ⟨h1, h2⟩ := h
  constructor
  · intro j hj1 hj2 hj3
    exact h1 j (by omega) (by omega) (by omega)
  · intro hc
    have := h2 (by omega)
    have he : i + 1 + (l - 1) - 1 - c = i + l - 1 - c := by omega
    rw [he]
    exact this

/-- Invariant of the rolling counter: at the head of iteration `k` and after its
`while` loop, `n_Ns` describes the run of `N`s at the end of the current window. -/
theorem kernelIter_tailRun (T read : List Char) (pointers : List Nat) :
    ∀ k, TailRun read k (kernelIter T read pointers k).l (kernelIter T read pointers k).n_Ns ∧
      TailRun read k (extendAt T read pointers k).1 (extendAt T read pointers k).2 := by
  have hstep : ∀ k,
      TailRun read k (kernelIter T read pointers k).l (kernelIter T read pointers k).n_Ns →
      TailRun read k (extendAt T read pointers k).1 (extendAt T read pointers k).2 :=
    fun k h => tailRun_extendLoop T read k _ _ _ _ h
  intro k
  induction k with
  | zero =>
    have h0 : TailRun read 0 (kernelIter T read pointers 0).l
        (kernelIter T read pointers 0).n_Ns := by
      simp only [kernelIter_zero, kernelInit]
      exact ⟨fun j _ h2 _ => by omega, fun h => by omega⟩
    exact ⟨h0, hstep 0 h0⟩
  | succ k ih =>
    have h1 : TailRun read (k + 1) (kernelIter T read pointers (k + 1)).l
        (kernelIter T read pointers (k + 1)).n_Ns := by
      rw [kernelIter_l_succ]
      have hn : (kernelIter T read pointers (k + 1)).n_Ns = (extendAt T read pointers k).2 := by
        rw [← nNsAt_eq]; rfl
      rw [hn]
      exact tailRun_next read k _ _ ih.2
    exact ⟨h1, hstep (k + 1) h1⟩

theorem tailRun_iff (read : List Char) (i l c : Nat) (h : TailRun read i l c) :
    c < l ↔ ∃ j, i ≤ j ∧ j < i + l ∧ seqAt read j ≠ 'N' := by
  obtain ⟨h1, h2⟩ := h
  constructor
  · intro hc
    exact ⟨i + l - 1 - c, by omega, by omega, h2 hc⟩
  · rintro ⟨j, hj1, hj2, hj3⟩
    by_contra hc
    exact hj3 (h1 j hj1 hj2 (by omega))

theorem mem_window_iff (read : List Char) (i n : Nat) (hn : i + n ≤ read.length) (c : Char) :
    c ∈ (read.drop i).take n ↔ ∃ j, i ≤ j ∧ j < i + n ∧ seqAt read j = c := by
  rw [List.mem_iff_getElem?]
  constructor
  · rintro ⟨k, hk⟩
    rw [List.getElem?_take] at hk
    split at hk
    · rename_i hkn
      rw [List.getElem?_drop] at hk
      refine ⟨i + k, by omega, by omega, ?_⟩
      unfold seqAt
      rw [List.getD_eq_getElem?_getD, hk]
      rfl
    · exact absurd hk (by simp)
  · rintro ⟨j, hj1, hj2, hj3⟩
    refine ⟨j - i, ?_⟩
    rw [List.getElem?_take, if_pos (by omega), List.getElem?_drop]
    have hij : i + (j - i) = j := by omega
    rw [hij]
    unfold seqAt at hj3
    rw [List.getD_eq_getElem _ _ (by omega)] at hj3
    rw [List.getElem?_eq_getElem (by omega), hj3]

/-- The guard at position `i` in terms of the window `read[i .. i + L[i])`. -/
theorem guard_iff_window (T read : List Char) (pointers : List Nat) (i : Nat)
    (hi : i ≤ read.length) :
    (extendAt T read pointers i).2 < (extendAt T read pointers i).1 ↔
      ∃ c ∈ (read.drop i).take (extendAt T read pointers i).1, c ≠ 'N' := by
  rw [tailRun_iff read i _ _ (kernelIter_tailRun T read pointers i).2]
  have hb := extendAt_fst_bound T read pointers i hi
  constructor
  · rintro ⟨j, hj1, hj2, hj3⟩
    exact ⟨seqAt read j, (mem_window_iff read i _ hb _).2 ⟨j, hj1, hj2, rfl⟩, hj3⟩
  · rintro ⟨c, hc, hcN⟩
    obtain ⟨j, hj1, hj2, hj3⟩ := (mem_window_iff read i _ hb c).1 hc
    exact ⟨j, hj1, hj2, by rw [hj3]; exact hcN⟩

/-- C12: the rolling non-N guard is exact on the match window: after the extension at
`i`, `n_Ns < L[i]` holds if and only if `read[i .. i + L[i])` contains a character other
than `N`.  Hence a match whose whole window consists of `N`s leaves the longest MEM
unchanged, and for a read made of `N`s only the longest MEM stays `(0, 0, 0)`. -/
theorem guard_exact (T read : List Char) (pointers : List Nat)
    (hlen : pointers.length = read.length) :
    (∀ i, i < read.length →
      (nNsAt T read pointers i < (kernelLengths T read pointers).getD i 0 ↔
        ∃ c ∈ (read.drop i).take ((kernelLengths T read pointers).getD i 0), c ≠ 'N') ∧
      ((∀ c ∈ (read.drop i).take ((kernelLengths T read pointers).getD i 0), c = 'N') →
        (kernelIter T read pointers (i + 1)).mem_pos =
            (kernelIter T read pointers i).mem_pos ∧
          (kernelIter T read pointers (i + 1)).mem_len =
            (kernelIter T read pointers i).mem_len ∧
          (kernelIter T read pointers (i + 1)).mem_idx =
            (kernelIter T read pointers i).mem_idx)) ∧
    ((∀ c ∈ read, c = 'N') →
      longestMem T read pointers = { pos := 0, len := 0, idx := 0 }) := by
  constructor
  · intro i hi
    have hiP : i < pointers.length := by omega
    have hg := guard_iff_window T read pointers i (by omega)
    rw [kernelLengths_getD T read pointers i hiP, nNsAt_eq]
    refine ⟨hg, fun hall => ?_⟩
    have hlenL : i < (kernelIter T read pointers i).lengths.length := by
      rw [kernelIter_lengths_length]; exact hiP
    have hb := kernelBody_mem T read pointers (kernelIter T read pointers i) i hlenL
    rw [← kernelIter_succ] at hb
    rcases hb with ⟨_, hlt, _⟩ | ⟨_, h1, h2, h3⟩
    · obtain ⟨c, hc, hcN⟩ := hg.1 hlt
      exact absurd (hall c hc) hcN
    · exact ⟨h3, h1, h2⟩
  · intro hall
    obtain ⟨_, h2⟩ := kernelIter_mem_invariant T read pointers pointers.length (Nat.le_refl _)
    rcases h2 with ⟨a, b, c⟩ | ⟨ha, hb, _, _⟩
    · have hidx : (longestMem T read pointers).idx =
          (kernelIter T read pointers pointers.length).mem_idx := rfl
      have hl : (longestMem T read pointers).len =
          (kernelIter T read pointers pointers.length).mem_len := rfl
      have hpos : (longestMem T read pointers).pos =
          (kernelIter T read pointers pointers.length).mem_pos := rfl
      rw [← hl] at a
      rw [← hidx] at b
      rw [← hpos] at c
      generalize longestMem T read pointers = M at a b c
      cases M
      simp_all
    · obtain ⟨c, hc, hcN⟩ := (guard_iff_window T read pointers _ (by omega)).1 hb
      exact absurd (hall c (List.mem_of_mem_drop (List.mem_of_mem_take hc))) hcN

/-- Witness of C12: on the text `ACGTACGTNN` the read `NN` matches with `L = [2, 1]`,
both windows consist of `N`s, and the longest MEM stays `(0, 0, 0)`. -/
theorem guard_exact_witness :
    kernelLengths "ACGTACGTNN".toList "NN".toList [8, 9] = [2, 1] ∧
      longestMem "ACGTACGTNN".toList "NN".toList [8, 9] = { pos := 0, len := 0, idx := 0 } :=
  ⟨by decide,
    (guard_exact "ACGTACGTNN".toList "NN".toList [8, 9] (by decide)).2 (by decide)⟩

/-! ## `next_start_fastq` returns the next record start -/

theorem bytes_length (r : FastqRecord) :
    r.bytes.length =
      (r.name.length + 2) + (r.seq.length + 1) + (r.plus.length + 2) + (r.qual.length + 1) := by
  simp [FastqRecord.bytes, FastqRecord.lines]
  omega

/-- A record start is the length of the bytes of a proper prefix of the records. -/
theorem mem_recordStarts_iff :
    ∀ (rs : List FastqRecord) (off s : Nat),
      s ∈ recordStarts rs off ↔
        ∃ pre post, rs = pre ++ post ∧ post ≠ [] ∧ s = off + (fastqBytes pre).length := by
  intro rs
  induction rs with
  | nil =>
    intro off s
    simp only [recordStarts, List.not_mem_nil, false_iff]
    rintro ⟨pre, post, h, hne, _⟩
    have := List.append_eq_nil.1 h.symm
    exact hne this.2
  | cons r rs ih =>
    intro off s
    simp only [recordStarts, List.mem_cons, ih]
    constructor
    · rintro (rfl | ⟨pre, post, rfl, hne, rfl⟩)
      · exact ⟨[], r :: rs, rfl, by simp, by simp [fastqBytes]⟩
      · exact ⟨r :: pre, post, rfl, hne, by rw [fastqBytes_length_cons]; omega⟩
    · rintro ⟨pre, post, h, hne, rfl⟩
      cases pre with
      | nil => left; simp [fastqBytes]
      | cons r' pre' =>
        right
        simp only [List.cons_append, List.cons.injEq] at h
        obtain ⟨rfl, rfl⟩ := h
        exact ⟨pre', post, rfl, hne, by rw [fastqBytes_length_cons]; omega⟩

theorem recordStarts_bounds :
    ∀ (rs : List FastqRecord) (off s : Nat), s ∈ recordStarts rs off →
      off ≤ s ∧ s < off + (fastqBytes rs).length := by
  intro rs
  induction rs with
  | nil => intro off s h; simp [recordStarts] at h
  | cons r rs ih =>
    intro off s h
    have hr := bytes_length r
    rw [fastqBytes_length_cons]
    simp only [recordStarts, List.mem_cons] at h
    rcases h with rfl | h
    · omega
    · have := ih _ _ h
      omega

theorem nextRecordAfter_spec :
    ∀ (rs : List FastqRecord) (off q : Nat), q < (fastqBytes rs).length →
      (off + nextRecordAfter rs q ∈ recordStarts rs off ∨
        nextRecordAfter rs q = (fastqBytes rs).length) ∧
      ∀ s ∈ recordStarts rs off, off + q < s → off + nextRecordAfter rs q ≤ s := by
  intro rs
  induction rs with
  | nil => intro off q hq; simp [fastqBytes] at hq
  | cons r rs ih =>
    intro off q hq
    rw [fastqBytes_length_cons] at hq ⊢
    simp only [nextRecordAfter, recordStarts, List.mem_cons]
    by_cases h : q < r.bytes.length
    · rw [if_pos h]
      constructor
      · cases rs with
        | nil => right; simp [fastqBytes]
        | cons r' rs' => left; right; simp [recordStarts]
      · intro s hs hq'
        rcases hs with rfl | hs
        · omega
        · exact (recordStarts_bounds rs _ s hs).1
    · rw [if_neg h]
      obtain ⟨h1, h2⟩ := ih (off + r.bytes.length) (q - r.bytes.length) (by omega)
      constructor
      · rcases h1 with h1 | h1
        · left; right
          rw [← Nat.add_assoc]
          exact h1
        · right; omega
      · intro s hs hq'
        rcases hs with rfl | hs
        · omega
        · have := h2 s hs (by omega)
          omega

theorem qualStarts_not_start :
    ∀ (rs : List FastqRecord) (off x : Nat), x ∈ qualStarts rs off →
      x ∉ recordStarts rs off ∧ off < x ∧ x < off + (fastqBytes rs).length := by
  intro rs
  induction rs with
  | nil => intro off x h; simp [qualStarts] at h
  | cons r rs ih =>
    intro off x h
    have hr := bytes_length r
    rw [fastqBytes_length_cons]
    simp only [qualStarts, List.mem_cons] at h
    simp only [recordStarts, List.mem_cons, not_or]
    rcases h with rfl | h
    · refine ⟨⟨by omega, fun hmem => ?_⟩, by omega, by omega⟩
      have := (recordStarts_bounds rs _ _ hmem).1
      omega
    · obtain ⟨h1, h2, h3⟩ := ih _ _ h
      exact ⟨⟨by omega, h1⟩, by omega, by omega⟩

theorem skipLineAux_append_of_some :
    ∀ (xs ys : List Char) (p q : Nat), skipLineAux xs p = some q →
      skipLineAux (xs ++ ys) p = some q := by
  intro xs
  induction xs with
  | nil => intro ys p q h; simp [skipLineAux] at h
  | cons c cs ih =>
    intro ys p q h
    simp only [skipLineAux, List.cons_append] at h ⊢
    split
    · rename_i hc
      rw [if_pos hc] at h
      exact h
    · rename_i hc
      rw [if_neg hc] at h
      exact ih ys (p + 1) q h

theorem skipLineAux_snoc_of_none :
    ∀ (xs : List Char) (p : Nat), skipLineAux xs p = none →
      skipLineAux (xs ++ ['\n']) p = some (p + xs.length + 1) := by
  intro xs
  induction xs with
  | nil => intro p _; simp [skipLineAux]
  | cons c cs ih =>
    intro p h
    simp only [skipLineAux, List.cons_append] at h ⊢
    split
    · rename_i hc
      rw [if_pos hc] at h
      exact absurd h (by simp)
    · rename_i hc
      rw [if_neg hc] at h
      change skipLineAux (cs ++ ['\n']) (p + 1) = _
      rw [ih (p + 1) h, List.length_cons]
      congr 1
      omega

theorem skipLineAux_some_index :
    ∀ (xs : List Char) (p q : Nat), skipLineAux xs p = some q →
      ∃ k, xs[k]? = some '\n' ∧ q = p + k + 1 := by
  intro xs
  induction xs with
  | nil => intro p q h; simp [skipLineAux] at h
  | cons c cs ih =>
    intro p q h
    simp only [skipLineAux] at h
    split at h
    · rename_i hc
      refine ⟨0, by simp [hc], ?_⟩
      simp only [Option.some.injEq] at h
      omega
    · obtain ⟨k, hk, hq⟩ := ih (p + 1) q h
      exact ⟨k + 1, by simpa using hk, by omega⟩

/-- Dropping the final newline of a file whose last line is not empty does not change
what one round of the window loop reads. -/
theorem nextLineStart_snoc_newline (f : List Char)
    (hlast : ∀ k, f[k]? = some '\n' → k + 1 < f.length) (pos : Nat) :
    nextLineStart f pos = nextLineStart (f ++ ['\n']) pos := by
  unfold nextLineStart skipLine
  by_cases hpos : pos ≤ f.length
  · rw [List.drop_append_of_le_length hpos]
    cases hs : skipLineAux (f.drop pos) pos with
    | none =>
      rw [skipLineAux_snoc_of_none _ _ hs]
      simp only [List.length_drop]
      have hnone : (f ++ ['\n'])[pos + (f.length - pos) + 1]? = none := by
        rw [List.getElem?_eq_none]
        simp only [List.length_append, List.length_singleton]
        omega
      rw [hnone]
    | some q =>
      rw [skipLineAux_append_of_some _ ['\n'] _ _ hs]
      obtain ⟨k, hk, hq⟩ := skipLineAux_some_index _ _ _ hs
      rw [List.getElem?_drop] at hk
      have hlt := hlast (pos + k) hk
      have hget : (f ++ ['\n'])[q]? = f[q]? := by
        rw [List.getElem?_append_left (by omega)]
      simp only [hget]
  · have h1 : f.drop pos = [] := List.drop_eq_nil_of_le (by omega)
    have h2 : (f ++ ['\n']).drop pos = [] :=
      List.drop_eq_nil_of_le (by simp only [List.length_append, List.length_singleton]; omega)
    rw [h1, h2]
    rfl

theorem collectWindow_snoc_newline (f : List Char)
    (hlast : ∀ k, f[k]? = some '\n' → k + 1 < f.length) :
    ∀ (k pos : Nat) (w : List (Char × Nat)),
      collectWindow f k pos w = collectWindow (f ++ ['\n']) k pos w := by
  intro k
  induction k with
  | zero => intro pos w; rfl
  | succ k ih =>
    intro pos w
    simp only [collectWindow, nextLineStart_snoc_newline f hlast pos]
    cases nextLineStart (f ++ ['\n']) pos with
    | none => rfl
    | some cq => exact ih _ _

/-- A position inside a record lies in one of its four lines, and at most three lines
of the record follow that line. -/
theorem record_split (r : FastqRecord) (hr : r.WellFormed) (q : Nat)
    (hq : q < r.bytes.length) :
    ∃ (A b : List Char) (ls : List (List Char)) (j : Nat),
      r.bytes = A ++ (b ++ '\n' :: ls.flatten) ∧ q = A.length + j ∧ j ≤ b.length ∧
        '\n' ∉ b.drop j ∧ (∀ x ∈ ls, ∃ c bx, x = c :: bx ++ ['\n'] ∧ '\n' ∉ bx) ∧
        ls.length < 4 := by
  obtain ⟨s0, q0, ss, qs, hl, hn, hs, hp, hqq, _, _⟩ := wellFormed_lines r hr
  have hbytes : r.bytes = ('@' :: r.name) ++ '\n' :: ((s0 :: ss) ++ '\n' ::
      (('+' :: r.plus) ++ '\n' :: ((q0 :: qs) ++ ['\n']))) := by
    unfold FastqRecord.bytes; rw [hl]; simp
  have hlen : r.bytes.length =
      (r.name.length + 2) + (ss.length + 2) + (r.plus.length + 2) + (qs.length + 2) := by
    rw [hbytes]; simp; omega
  rw [hlen] at hq
  rw [hbytes]
  have hs' := hs
  have hqq' := hqq
  simp only [List.mem_cons, not_or] at hs' hqq'
  have hname : '\n' ∉ '@' :: r.name := by
    simp only [List.mem_cons, not_or]
    exact ⟨by decide, hn⟩
  have hplus : '\n' ∉ '+' :: r.plus := by
    simp only [List.mem_cons, not_or]
    exact ⟨by decide, hp⟩
  by_cases h0 : q < r.name.length + 2
  · refine ⟨[], '@' :: r.name,
      [(s0 :: ss) ++ ['\n'], ('+' :: r.plus) ++ ['\n'], (q0 :: qs) ++ ['\n']], q,
      by simp, by simp, by simp; omega, fun h => hname (List.mem_of_mem_drop h), ?_, by simp⟩
    intro x hx
    simp only [List.mem_cons, List.mem_singleton, List.not_mem_nil, or_false] at hx
    rcases hx with rfl | rfl | rfl
    · exact ⟨s0, ss, rfl, hs'.2⟩
    · exact ⟨'+', r.plus, rfl, hp⟩
    · exact ⟨q0, qs, rfl, hqq'.2⟩
  · by_cases h1 : q < r.name.length + 2 + (ss.length + 2)
    · refine ⟨('@' :: r.name) ++ ['\n'], s0 :: ss,
        [('+' :: r.plus) ++ ['\n'], (q0 :: qs) ++ ['\n']], q - (r.name.length + 2),
        by simp, by simp; omega, by simp; omega, fun h => hs (List.mem_of_mem_drop h), ?_,
        by simp⟩
      intro x hx
      simp only [List.mem_cons, List.mem_singleton, List.not_mem_nil, or_false] at hx
      rcases hx with rfl | rfl
      · exact ⟨'+', r.plus, rfl, hp⟩
      · exact ⟨q0, qs, rfl, hqq'.2⟩
    · by_cases h2 : q < r.name.length + 2 + (ss.length + 2) + (r.plus.length + 2)
      · refine ⟨('@' :: r.name) ++ ['\n'] ++ ((s0 :: ss) ++ ['\n']), '+' :: r.plus,
          [(q0 :: qs) ++ ['\n']], q - (r.name.length + 2 + (ss.length + 2)),
          by simp, by simp; omega, by simp; omega, fun h => hplus (List.mem_of_mem_drop h),
          ?_, by simp⟩
        intro x hx
        simp only [List.mem_cons, List.mem_singleton, List.not_mem_nil, or_false] at hx
        rcases hx with rfl
        exact ⟨q0, qs, rfl, hqq'.2⟩
      · refine ⟨('@' :: r.name) ++ ['\n'] ++ ((s0 :: ss) ++ ['\n']) ++
            (('+' :: r.plus) ++ ['\n']), q0 :: qs, [],
          q - (r.name.length + 2 + (ss.length + 2) + (r.plus.length + 2)),
          by simp, by simp; omega, by simp; omega, fun h => hqq (List.mem_of_mem_drop h),
          ?_, by simp⟩
        intro x hx
        simp at hx

/-- A scan started inside the last record of the file meets `EOF` before the window
is full. -/
theorem collectWindow_last_record (A : List Char) (r : FastqRecord) (hr : r.WellFormed)
    (q : Nat) (hq : q < r.bytes.length) :
    collectWindow (A ++ r.bytes) 4 (A.length + q) [] = none := by
  obtain ⟨A', b, ls, j, hsplit, hqj, hj, hb, hls, hlt⟩ := record_split r hr q hq
  have hfile : A ++ r.bytes = (A ++ A') ++ (b ++ '\n' :: ls.flatten) := by
    rw [hsplit, List.append_assoc]
  have hpos : A.length + q = (A ++ A').length + j := by
    rw [List.length_append, hqj]; omega
  rw [hfile, hpos]
  exact (collectWindow_lines 4 ls (A ++ A') b j [] hj hb hls).2 hlt

theorem collectWindow_none_fastq :
    ∀ (rs : List FastqRecord) (A : List Char) (q : Nat), (∀ r ∈ rs, r.WellFormed) →
      q < (fastqBytes rs).length → nextRecordAfter rs q = (fastqBytes rs).length →
      collectWindow (A ++ fastqBytes rs) 4 (A.length + q) [] = none := by
  intro rs
  induction rs with
  | nil => intro A q _ hq; simp [fastqBytes] at hq
  | cons r rs ih =>
    intro A q hwf hq hnext
    have hr := hwf r (List.mem_cons_self _ _)
    have hrs : ∀ x ∈ rs, x.WellFormed := fun x hx => hwf x (List.mem_cons_of_mem _ hx)
    rw [fastqBytes_length_cons] at hq hnext
    simp only [nextRecordAfter] at hnext
    by_cases h : q < r.bytes.length
    · rw [if_pos h] at hnext
      have hnil : fastqBytes rs = [] := List.length_eq_zero.1 (by omega)
      rw [fastqBytes_cons, hnil, List.append_nil]
      exact collectWindow_last_record A r hr q h
    · rw [if_neg h] at hnext
      have hfile : A ++ fastqBytes (r :: rs) = (A ++ r.bytes) ++ fastqBytes rs := by
        rw [fastqBytes_cons, List.append_assoc]
      have hpos : A.length + q = (A ++ r.bytes).length + (q - r.bytes.length) := by
        rw [List.length_append]; omega
      rw [hfile, hpos]
      exact ih (A ++ r.bytes) (q - r.bytes.length) hrs (by omega) (by omega)

/-- A non-empty well-formed file ends with a non-empty quality string and a newline. -/
theorem fastqBytes_last_line :
    ∀ (rs : List FastqRecord), (∀ r ∈ rs, r.WellFormed) → rs ≠ [] →
      ∃ X Q : List Char, fastqBytes rs = X ++ (Q ++ ['\n']) ∧ Q ≠ [] ∧ '\n' ∉ Q := by
  intro rs
  induction rs with
  | nil => intro _ h; exact absurd rfl h
  | cons r rs ih =>
    intro hwf _
    have hr := hwf r (List.mem_cons_self _ _)
    have hrs : ∀ x ∈ rs, x.WellFormed := fun x hx => hwf x (List.mem_cons_of_mem _ hx)
    cases rs with
    | nil =>
      refine ⟨('@' :: r.name) ++ ['\n'] ++ (r.seq ++ ['\n']) ++ (('+' :: r.plus) ++ ['\n']),
        r.qual, ?_, hr.2.2.2.2.2.2.2, hr.2.2.2.1⟩
      simp [fastqBytes, FastqRecord.bytes, FastqRecord.lines]
    | cons r' rs' =>
      obtain ⟨X, Q, hX, hQ, hQn⟩ := ih hrs (by simp)
      exact ⟨r.bytes ++ X, Q, by rw [fastqBytes_cons, hX, List.append_assoc], hQ, hQn⟩

theorem no_final_newline (X Q : List Char) (hQ : Q ≠ []) (hQn : '\n' ∉ Q) :
    ∀ k, (X ++ Q)[k]? = some '\n' → k + 1 < (X ++ Q).length := by
  intro k hk
  have hQlen : 0 < Q.length := List.length_pos.2 hQ
  rw [List.length_append]
  by_cases hkX : k < X.length
  · omega
  · rw [List.getElem?_append_right (by omega)] at hk
    exact absurd (List.getElem?_mem hk) hQn

/-- The result of `next_start_fastq` on a well-formed file, with or without the final
newline, for a cursor `0 < p ≤ size`. -/
theorem next_start_fastq_file_eq (rs : List FastqRecord) (hwf : ∀ r ∈ rs, r.WellFormed)
    (nl : Bool) (p : Nat) (hp0 : 0 < p) (hp : p ≤ (fastqFile rs nl).length) :
    next_start_fastq (fastqFile rs nl) p =
      if nextRecordAfter rs (p - 1) = (fastqBytes rs).length then (fastqFile rs nl).length
      else nextRecordAfter rs (p - 1) := by
  cases nl with
  | true =>
    simp only [fastqFile, if_true] at hp ⊢
    rw [next_start_fastq_eq rs hwf p hp, if_neg (by omega)]
    split
    · rename_i h; exact h
    · rfl
  | false =>
    have hne : rs ≠ [] := by
      rintro rfl
      simp [fastqFile, fastqBytes] at hp
      omega
    obtain ⟨X, Q, hX, hQ, hQn⟩ := fastqBytes_last_line rs hwf hne
    have hfile : fastqBytes rs = (X ++ Q) ++ ['\n'] := by rw [hX, List.append_assoc]
    have hf : fastqFile rs false = X ++ Q := by
      simp only [fastqFile, Bool.false_eq_true, if_false]
      rw [hfile, List.dropLast_concat]
    have hsize : (fastqBytes rs).length = (X ++ Q).length + 1 := by
      rw [hfile, List.length_append, List.length_singleton]
    rw [hf] at hp ⊢
    have hq : p - 1 < (fastqBytes rs).length := by omega
    have hscan := scanFrom_fastq rs [] (p - 1) hwf hq
    simp only [List.nil_append, List.length_nil, Nat.zero_add] at hscan
    have hcw := collectWindow_snoc_newline (X ++ Q) (no_final_newline X Q hQ hQn) 4 (p - 1) []
    rw [← hfile] at hcw
    unfold next_start_fastq
    rw [if_neg (fun h => by omega)]
    unfold scanFrom at hscan ⊢
    rw [hcw]
    cases hc : collectWindow (fastqBytes rs) 4 (p - 1) [] with
    | none =>
      rw [hc] at hscan
      simp only [] at hscan ⊢
      rw [if_pos hscan.symm]
    | some wc =>
      rw [hc] at hscan
      simp only [] at hscan ⊢
      have hne' : nextRecordAfter rs (p - 1) ≠ (fastqBytes rs).length := by
        intro h
        have := collectWindow_none_fastq rs [] (p - 1) hwf hq h
        simp only [List.nil_append, List.length_nil, Nat.zero_add] at this
        rw [this] at hc
        exact absurd hc (by simp)
      rw [if_neg hne']
      exact hscan

theorem qualStarts_room :
    ∀ (rs : List FastqRecord) (off x : Nat), (∀ r ∈ rs, r.WellFormed) →
      x ∈ qualStarts rs off → x + 2 ≤ off + (fastqBytes rs).length := by
  intro rs
  induction rs with
  | nil => intro off x _ h; simp [qualStarts] at h
  | cons r rs ih =>
    intro off x hwf h
    have hr := hwf r (List.mem_cons_self _ _)
    have hrs : ∀ y ∈ rs, y.WellFormed := fun y hy => hwf y (List.mem_cons_of_mem _ hy)
    have hq : 0 < r.qual.length := List.length_pos.2 hr.2.2.2.2.2.2.2
    have hb := bytes_length r
    rw [fastqBytes_length_cons]
    simp only [qualStarts, List.mem_cons] at h
    rcases h with rfl | h
    · omega
    · have := ih _ _ hrs h
      omega

theorem fastqFile_length (rs : List FastqRecord) (nl : Bool) :
    (fastqFile rs nl).length ≤ (fastqBytes rs).length ∧
      (fastqBytes rs).length ≤ (fastqFile rs nl).length + 1 := by
  cases nl with
  | true => simp [fastqFile]
  | false =>
    simp only [fastqFile, Bool.false_eq_true, if_false, List.length_dropLast]
    omega

/-- C13: on a well-formed four-line FASTQ file (its final newline present or not) and
for a seek offset `0 < p ≤ size`, `next_start_fastq` returns the smallest offset `≥ p`
at which a record's `@` header line begins when there is one, and the file size
otherwise; in particular it never returns the offset of a quality line, whatever
character that line starts with. -/
theorem next_start_fastq_spec (rs : List FastqRecord) (hwf : ∀ r ∈ rs, r.WellFormed)
    (nl : Bool) (p : Nat) (hp0 : 0 < p) (hp : p ≤ (fastqFile rs nl).length) :
    ((∃ s ∈ recordStarts rs 0, p ≤ s) →
        next_start_fastq (fastqFile rs nl) p ∈ recordStarts rs 0 ∧
        p ≤ next_start_fastq (fastqFile rs nl) p ∧
        ∀ s ∈ recordStarts rs 0, p ≤ s → next_start_fastq (fastqFile rs nl) p ≤ s) ∧
      ((¬ ∃ s ∈ recordStarts rs 0, p ≤ s) →
        next_start_fastq (fastqFile rs nl) p = (fastqFile rs nl).length) ∧
      (∀ x ∈ qualStarts rs 0, next_start_fastq (fastqFile rs nl) p ≠ x) := by
  obtain ⟨hsz1, hsz2⟩ := fastqFile_length rs nl
  rw [next_start_fastq_file_eq rs hwf nl p hp0 hp]
  obtain ⟨h1, h2⟩ := nextRecordAfter_spec rs 0 (p - 1) (by omega)
  obtain ⟨h3, h4⟩ := nextRecordAfter_bounds rs (p - 1) (by omega)
  simp only [Nat.zero_add] at h1 h2
  refine ⟨?_, ?_, ?_⟩
  · rintro ⟨s, hs, hps⟩
    have hle := h2 s hs (by omega)
    have hlt := (recordStarts_bounds rs 0 s hs).2
    rw [if_neg (by omega)]
    refine ⟨?_, by omega, fun s' hs' hps' => h2 s' hs' (by omega)⟩
    rcases h1 with h1 | h1
    · exact h1
    · omega
  · intro hnone
    rcases h1 with h1 | h1
    · exact absurd ⟨_, h1, by omega⟩ hnone
    · rw [if_pos h1]
  · intro x hx heq
    obtain ⟨hx1, _, _⟩ := qualStarts_not_start rs 0 x hx
    have hroom := qualStarts_room rs 0 x hwf hx
    by_cases hsize : nextRecordAfter rs (p - 1) = (fastqBytes rs).length
    · rw [if_pos hsize] at heq
      omega
    · rw [if_neg hsize] at heq
      rcases h1 with h1 | h1
      · rw [heq] at h1
        exact hx1 h1
      · exact hsize h1

/-- Witness of C13: three records, the second with the quality line `@I` and the third
with the quality line `+`; from `p = 10` the next record start is `20`, while the
quality line of the second record starts at `17`. -/
theorem next_start_fastq_spec_witness :
    fastqFile [{ name := ['r'], seq := ['A'], plus := [], qual := ['I'] },
        { name := ['s'], seq := ['C', 'C'], plus := [], qual := ['@', 'I'] },
        { name := ['t'], seq := ['G'], plus := ['x'], qual := ['+'] }] true =
        "@r\nA\n+\nI\n@s\nCC\n+\n@I\n@t\nG\n+x\n+\n".toList ∧
      qualStarts [{ name := ['r'], seq := ['A'], plus := [], qual := ['I'] },
        { name := ['s'], seq := ['C', 'C'], plus := [], qual := ['@', 'I'] },
        { name := ['t'], seq := ['G'], plus := ['x'], qual := ['+'] }] 0 = [7, 17, 28] ∧
      next_start_fastq
        (fastqFile [{ name := ['r'], seq := ['A'], plus := [], qual := ['I'] },
          { name := ['s'], seq := ['C', 'C'], plus := [], qual := ['@', 'I'] },
          { name := ['t'], seq := ['G'], plus := ['x'], qual := ['+'] }] true) 10 ∈
        recordStarts [{ name := ['r'], seq := ['A'], plus := [], qual := ['I'] },
          { name := ['s'], seq := ['C', 'C'], plus := [], qual := ['@', 'I'] },
          { name := ['t'], seq := ['G'], plus := ['x'], qual := ['+'] }] 0 ∧
      next_start_fastq
        (fastqFile [{ name := ['r'], seq := ['A'], plus := [], qual := ['I'] },
          { name := ['s'], seq := ['C', 'C'], plus := [], qual := ['@', 'I'] },
          { name := ['t'], seq := ['G'], plus := ['x'], qual := ['+'] }] true) 10 = 20 :=
  ⟨by decide, by decide,
    ((next_start_fastq_spec [{ name := ['r'], seq := ['A'], plus := [], qual := ['I'] },
      { name := ['s'], seq := ['C', 'C'], plus := [], qual := ['@', 'I'] },
      { name := ['t'], seq := ['G'], plus := ['x'], qual := ['+'] }]
      (by decide) true 10 (by decide) (by decide)).1 ⟨20, by decide, by decide⟩).1,
    by decide⟩

/-! ## `split_fastq` -/

theorem recordStarts_room :
    ∀ (rs : List FastqRecord) (off s : Nat), s ∈ recordStarts rs off →
      s + 6 ≤ off + (fastqBytes rs).length := by
  intro rs
  induction rs with
  | nil => intro off s h; simp [recordStarts] at h
  | cons r rs ih =>
    intro off s h
    have hr := bytes_length r
    rw [fastqBytes_length_cons]
    simp only [recordStarts, List.mem_cons] at h
    rcases h with rfl | h
    · omega
    · have := ih _ _ h
      omega

theorem fastqFile_head (rs : List FastqRecord) (hwf : ∀ r ∈ rs, r.WellFormed) (nl : Bool)
    (hne : rs ≠ []) : (fastqFile rs nl)[0]? = some '@' := by
  have hpos : 0 < (fastqBytes rs).length := by
    cases rs with
    | nil => exact absurd rfl hne
    | cons r rs =>
      have := bytes_length r
      rw [fastqBytes_length_cons]
      omega
  cases nl with
  | true =>
    simp only [fastqFile, if_true]
    exact fastqBytes_head rs hpos
  | false =>
    obtain ⟨X, Q, hX, hQ, _⟩ := fastqBytes_last_line rs hwf hne
    have hfile : fastqBytes rs = (X ++ Q) ++ ['\n'] := by rw [hX, List.append_assoc]
    have hQlen : 0 < Q.length := List.length_pos.2 hQ
    have hhead := fastqBytes_head rs hpos
    simp only [fastqFile, Bool.false_eq_true, if_false]
    rw [hfile, List.dropLast_concat]
    rw [hfile, List.getElem?_append_left (by rw [List.length_append]; omega)] at hhead
    exact hhead

theorem next_start_fastq_zero (rs : List FastqRecord) (hwf : ∀ r ∈ rs, r.WellFormed)
    (nl : Bool) : next_start_fastq (fastqFile rs nl) 0 = 0 := by
  by_cases hne : rs = []
  · subst hne
    cases nl <;> rfl
  · unfold next_start_fastq
    rw [if_pos ⟨rfl, fastqFile_head rs hwf nl hne⟩]

/-- On a well-formed file, with or without the final newline, and for a cursor
`p ≤ size`, `next_start_fastq` returns the least record start `≥ p`, or the file size
when there is none. -/
theorem next_start_fastq_least (rs : List FastqRecord) (hwf : ∀ r ∈ rs, r.WellFormed)
    (nl : Bool) (p : Nat) (hp : p ≤ (fastqFile rs nl).length) :
    ((∃ s ∈ recordStarts rs 0, p ≤ s) →
        next_start_fastq (fastqFile rs nl) p ∈ recordStarts rs 0 ∧
        p ≤ next_start_fastq (fastqFile rs nl) p ∧
        ∀ s ∈ recordStarts rs 0, p ≤ s → next_start_fastq (fastqFile rs nl) p ≤ s) ∧
      ((¬ ∃ s ∈ recordStarts rs 0, p ≤ s) →
        next_start_fastq (fastqFile rs nl) p = (fastqFile rs nl).length) := by
  by_cases hp0 : p = 0
  · subst hp0
    rw [next_start_fastq_zero rs hwf nl]
    cases rs with
    | nil =>
      refine ⟨fun h => ?_, fun _ => ?_⟩
      · obtain ⟨s, hs, _⟩ := h
        simp [recordStarts] at hs
      · cases nl <;> rfl
    | cons r rs =>
      refine ⟨fun _ => ⟨by simp [recordStarts], Nat.le_refl _, fun s _ _ => Nat.zero_le s⟩,
        fun h => ?_⟩
      exact absurd ⟨0, by simp [recordStarts], Nat.le_refl _⟩ h
  · obtain ⟨hsz1, hsz2⟩ := fastqFile_length rs nl
    rw [next_start_fastq_file_eq rs hwf nl p (by omega) hp]
    obtain ⟨h1, h2⟩ := nextRecordAfter_spec rs 0 (p - 1) (by omega)
    obtain ⟨h3, h4⟩ := nextRecordAfter_bounds rs (p - 1) (by omega)
    simp only [Nat.zero_add] at h1 h2
    constructor
    · rintro ⟨s, hs, hps⟩
      have hle := h2 s hs (by omega)
      have hlt := (recordStarts_bounds rs 0 s hs).2
      rw [if_neg (by omega)]
      refine ⟨?_, by omega, fun s' hs' hps' => h2 s' hs' (by omega)⟩
      rcases h1 with h1 | h1
      · exact h1
      · omega
    · intro hnone
      rcases h1 with h1 | h1
      · exact absurd ⟨_, h1, by omega⟩ hnone
      · rw [if_pos h1]

theorem next_start_fastq_range (rs : List FastqRecord) (hwf : ∀ r ∈ rs, r.WellFormed)
    (nl : Bool) (p : Nat) (hp : p ≤ (fastqFile rs nl).length) :
    p ≤ next_start_fastq (fastqFile rs nl) p ∧
      next_start_fastq (fastqFile rs nl) p ≤ (fastqFile rs nl).length := by
  obtain ⟨h1, h2⟩ := next_start_fastq_least rs hwf nl p hp
  obtain ⟨_, hsz2⟩ := fastqFile_length rs nl
  by_cases h : ∃ s ∈ recordStarts rs 0, p ≤ s
  · obtain ⟨hm, hge, _⟩ := h1 h
    have := recordStarts_room rs 0 _ hm
    exact ⟨hge, by omega⟩
  · rw [h2 h]
    exact ⟨hp, Nat.le_refl _⟩

/-- Two cursors give the same result exactly when no record starts between them, and
the later cursor gives a larger result otherwise. -/
theorem next_start_fastq_between (rs : List FastqRecord) (hwf : ∀ r ∈ rs, r.WellFormed)
    (nl : Bool) (a b : Nat) (hab : a ≤ b) (hb : b ≤ (fastqFile rs nl).length) :
    next_start_fastq (fastqFile rs nl) a ≤ next_start_fastq (fastqFile rs nl) b ∧
      (next_start_fastq (fastqFile rs nl) a = next_start_fastq (fastqFile rs nl) b ↔
        ∀ s ∈ recordStarts rs 0, ¬ (a ≤ s ∧ s < b)) := by
  obtain ⟨ha1, ha2⟩ := next_start_fastq_least rs hwf nl a (by omega)
  obtain ⟨hb1, hb2⟩ := next_start_fastq_least rs hwf nl b hb
  obtain ⟨hra, hra'⟩ := next_start_fastq_range rs hwf nl a (by omega)
  obtain ⟨hrb, hrb'⟩ := next_start_fastq_range rs hwf nl b hb
  by_cases hmid : ∃ s ∈ recordStarts rs 0, a ≤ s ∧ s < b
  · obtain ⟨s, hs, has, hsb⟩ := hmid
    obtain ⟨_, _, hmin⟩ := ha1 ⟨s, hs, has⟩
    have := hmin s hs has
    refine ⟨by omega, ⟨fun heq => by omega, fun hno => absurd ⟨has, hsb⟩ (hno s hs)⟩⟩
  · have hno : ∀ s ∈ recordStarts rs 0, ¬ (a ≤ s ∧ s < b) :=
      fun s hs h => hmid ⟨s, hs, h⟩
    have heq : next_start_fastq (fastqFile rs nl) a = next_start_fastq (fastqFile rs nl) b := by
      by_cases hB : ∃ s ∈ recordStarts rs 0, b ≤ s
      · obtain ⟨hbm, hbge, hbmin⟩ := hb1 hB
        obtain ⟨s, hs, hbs⟩ := hB
        obtain ⟨ham, hage, hamin⟩ := ha1 ⟨s, hs, by omega⟩
        have h1 := hamin _ hbm (by omega)
        have h2 : b ≤ next_start_fastq (fastqFile rs nl) a := by
          by_contra hlt
          exact hno _ ham ⟨hage, by omega⟩
        have h3 := hbmin _ ham h2
        omega
      · have hA : ¬ ∃ s ∈ recordStarts rs 0, a ≤ s := by
          rintro ⟨s, hs, has⟩
          by_cases hsb : s < b
          · exact hno s hs ⟨has, hsb⟩
          · exact hB ⟨s, hs, by omega⟩
        rw [ha2 hA, hb2 hB]
    exact ⟨by omega, ⟨fun _ => hno, fun _ => heq⟩⟩

theorem intMax_lt_sizeMod : intMax < sizeMod := by
  unfold intMax sizeMod
  norm_num

/-- C10 as stated fails: the one-record file `@r\nA\n+\nI\n` (9 bytes) split in two
gives the offsets `[0, 9, 9]`, which are not strictly increasing. -/
theorem split_fastq_not_strict :
    (∀ r ∈ [({ name := ['r'], seq := ['A'], plus := [], qual := ['I'] } : FastqRecord)],
        r.WellFormed) ∧
      fastqBytes [{ name := ['r'], seq := ['A'], plus := [], qual := ['I'] }] =
        "@r\nA\n+\nI\n".toList ∧
      split_fastq (fastqBytes [{ name := ['r'], seq := ['A'], plus := [], qual := ['I'] }]) 2 =
        some [0, 9, 9] ∧
      ¬ List.Pairwise (· < ·) ([0, 9, 9] : List Nat) := by
  decide

/-- C10 (amended): for a well-formed FASTQ file (its final newline present or not) and
`N` shards with `1 ≤ N`, `N + 1 ≤ intMax` and `size * N < 2 ^ 64`, `split_fastq` returns
`N + 1` offsets with `s_0 = 0`, `s_N = file_size` and `s_0 ≤ s_1 ≤ ... ≤ s_N`; two
consecutive offsets `s_i`, `s_(i+1)` are equal exactly when no record starts at an
offset in `[size * i / N, size * (i + 1) / N)`. -/
theorem split_fastq_spec (rs : List FastqRecord) (hwf : ∀ r ∈ rs, r.WellFormed)
    (nl : Bool) (N : Nat) (hN : 1 ≤ N) (hint : N + 1 ≤ intMax)
    (h64 : (fastqFile rs nl).length * N < sizeMod) :
    ∃ starts, split_fastq (fastqFile rs nl) N = some starts ∧
      starts.length = N + 1 ∧
      starts.getD 0 0 = 0 ∧
      starts.getD N 0 = (fastqFile rs nl).length ∧
      List.Pairwise (· ≤ ·) starts ∧
      ∀ i, i < N →
        starts.getD i 0 ≤ starts.getD (i + 1) 0 ∧
        (starts.getD i 0 = starts.getD (i + 1) 0 ↔
          ∀ s ∈ recordStarts rs 0,
            ¬ ((fastqFile rs nl).length * i / N ≤ s ∧
              s < (fastqFile rs nl).length * (i + 1) / N)) := by
  have hlt := intMax_lt_sizeMod
  have hcount : (N + 1) % sizeMod = N + 1 := Nat.mod_eq_of_lt (by omega)
  have hstart : ∀ i, i ≤ N →
      ((fastqFile rs nl).length * i) % sizeMod / N = (fastqFile rs nl).length * i / N := by
    intro i hi
    rw [Nat.mod_eq_of_lt]
    exact lt_of_le_of_lt (Nat.mul_le_mul_left _ hi) h64
  have hle : ∀ i, i ≤ N → (fastqFile rs nl).length * i / N ≤ (fastqFile rs nl).length := by
    intro i hi
    apply Nat.div_le_of_le_mul
    rw [Nat.mul_comm N]
    exact Nat.mul_le_mul_left _ hi
  have hmono : ∀ i j, i ≤ j →
      (fastqFile rs nl).length * i / N ≤ (fastqFile rs nl).length * j / N :=
    fun i j hij => Nat.div_le_div_right (Nat.mul_le_mul_left _ hij)
  have hsplit : split_fastq (fastqFile rs nl) N =
      some ((List.range (N + 1)).map
        (fun i => next_start_fastq (fastqFile rs nl)
          (((fastqFile rs nl).length * i) % sizeMod / N))) := by
    unfold split_fastq
    rw [hcount, if_neg (by omega), if_neg (by omega), if_neg (by omega)]
  have hget : ∀ i, i ≤ N →
      ((List.range (N + 1)).map
        (fun i => next_start_fastq (fastqFile rs nl)
          (((fastqFile rs nl).length * i) % sizeMod / N))).getD i 0 =
        next_start_fastq (fastqFile rs nl) ((fastqFile rs nl).length * i / N) := by
    intro i hi
    rw [List.getD_eq_getElem?_getD, List.getElem?_map, List.getElem?_range (by omega)]
    simp only [Option.map_some', Option.getD_some]
    rw [hstart i hi]
  refine ⟨_, hsplit, by simp, ?_, ?_, ?_, ?_⟩
  · rw [hget 0 (by omega)]
    simp only [Nat.mul_zero, Nat.zero_div]
    exact next_start_fastq_zero rs hwf nl
  · rw [hget N (Nat.le_refl _), Nat.mul_div_cancel _ (by omega : 0 < N)]
    obtain ⟨h1, h2⟩ := next_start_fastq_range rs hwf nl _ (Nat.le_refl _)
    omega
  · rw [List.pairwise_map]
    refine List.Pairwise.imp_of_mem ?_ (List.pairwise_lt_range (N + 1))
    intro i j hi hj hij
    rw [List.mem_range] at hi hj
    rw [hstart i (by omega), hstart j (by omega)]
    exact (next_start_fastq_between rs hwf nl _ _ (hmono i j (by omega))
      (hle j (by omega))).1
  · intro i hi
    rw [hget i (by omega), hget (i + 1) (by omega)]
    exact next_start_fastq_between rs hwf nl _ _ (hmono i (i + 1) (by omega))
      (hle (i + 1) (by omega))

/-- Witness of the amended C10: the one-record file `@r\nA\n+\nI` without the final
newline and `N = 2` give `[0, 8, 8]`. -/
theorem split_fastq_spec_witness :
    split_fastq
        (fastqFile [{ name := ['r'], seq := ['A'], plus := [], qual := ['I'] }] false) 2 =
        some [0, 8, 8] ∧
      ∃ starts,
        split_fastq
          (fastqFile [{ name := ['r'], seq := ['A'], plus := [], qual := ['I'] }] false) 2 =
          some starts ∧
        starts.length = 2 + 1 ∧
        starts.getD 0 0 = 0 ∧
        starts.getD 2 0 =
          (fastqFile [{ name := ['r'], seq := ['A'], plus := [], qual := ['I'] }]
            false).length ∧
        List.Pairwise (· ≤ ·) starts ∧
        ∀ i, i < 2 →
          starts.getD i 0 ≤ starts.getD (i + 1) 0 ∧
          (starts.getD i 0 = starts.getD (i + 1) 0 ↔
            ∀ s ∈ recordStarts [{ name := ['r'], seq := ['A'], plus := [], qual := ['I'] }] 0,
              ¬ ((fastqFile [{ name := ['r'], seq := ['A'], plus := [], qual := ['I'] }]
                    false).length * i / 2 ≤ s ∧
                s < (fastqFile [{ name := ['r'], seq := ['A'], plus := [], qual := ['I'] }]
                    false).length * (i + 1) / 2)) :=
  ⟨by decide,
    split_fastq_spec [{ name := ['r'], seq := ['A'], plus := [], qual := ['I'] }]
      (by decide) false 2 (by decide) (by decide) (by decide)⟩

end Moni
